import Mathlib

/-
  Verification development for the aria_make build system.

  The definitions below are a shallow embedding of the C++ sources:

    src/src/state/state_manager.cpp     (StateManager)
    src/src/core/build_orchestrator.cpp (BuildOrchestrator)
    src/src/main.cpp                    (command line front end)

  Machine integers (uint64_t) are modelled as Nat with explicit
  reduction modulo 2^64.  The filesystem is modelled as a structure
  mapping paths to optional contents plus a modification time.
  Iteration order of std::unordered_map / std::unordered_set, which is
  unspecified in C++, is modelled by an explicit enumeration parameter
  where it matters.
-/

namespace AriaMake

/-! ## FNV-1a hashing (state_manager.cpp, lines 23-24 and 398-419) -/

def FNV_OFFSET_BASIS : Nat := 14695981039346656037
def FNV_PRIME : Nat := 1099511628211
def U64 : Nat := 2 ^ 64

/-- One FNV-1a step: xor in a byte, multiply by the prime, modulo 2^64. -/
def fnv1aStep (h b : Nat) : Nat := ((h ^^^ (b % 256)) * FNV_PRIME) % U64

/-- FNV-1a over the bytes of a string (StateManager::fnv1a_hash, string overload). -/
def fnv1a_hash_str (s : String) : Nat :=
  s.data.foldl (fun h c => fnv1aStep h c.toNat) FNV_OFFSET_BASIS

/-- FNV-1a over a list of strings with a 0xFF separator after each element
(StateManager::fnv1a_hash, vector overload). -/
def fnv1a_hash_list (l : List String) : Nat :=
  l.foldl (fun h s => fnv1aStep (s.data.foldl (fun h2 c => fnv1aStep h2 c.toNat) h) 0xFF)
    FNV_OFFSET_BASIS

/-- Lower-case hex digit for a value below 16. -/
def hexDigit (n : Nat) : Char :=
  if n < 10 then Char.ofNat (48 + n) else Char.ofNat (87 + n)

/-- Hex rendering of a Nat, 16 digits, zero padded on the left
(mirrors `std::hex << std::setfill('0') << std::setw(16)` for a uint64_t). -/
def toHex16 (n : Nat) : String :=
  let rec go : Nat → Nat → List Char
    | 0, _ => []
    | k + 1, m => go k (m / 16) ++ [hexDigit (m % 16)]
  ⟨go 16 n⟩

/-! ## Data model (include/state/artifact_record.hpp) -/

structure DependencyInfo where
  path : String
  hash : String
deriving DecidableEq, Repr

structure ArtifactRecord where
  target_name : String
  output_path : String
  source_hash : String
  command_hash : Nat
  direct_dependencies : List DependencyInfo
  implicit_dependencies : List String
  source_timestamp : Nat
  build_timestamp : Nat
  build_duration_ms : Nat
deriving DecidableEq, Repr

/-- Default-constructed ArtifactRecord (all strings empty, numbers zero). -/
def ArtifactRecord.default : ArtifactRecord :=
  ⟨"", "", "", 0, [], [], 0, 0, 0⟩

/-- ArtifactRecord::is_valid. -/
def ArtifactRecord.is_valid (r : ArtifactRecord) : Bool :=
  r.target_name ≠ "" && r.source_hash ≠ ""

structure ToolchainInfo where
  compiler_version : String
  compiler_hash : String
deriving DecidableEq, Repr

structure BuildStats where
  total_targets : Nat
  rebuilt_targets : Nat
  cached_targets : Nat
  failed_targets : Nat
  total_time_ms : Nat
  hash_time_ms : Nat
deriving DecidableEq, Repr

inductive DirtyReason where
  | CLEAN
  | MISSING_ARTIFACT
  | MISSING_RECORD
  | SOURCE_CHANGED
  | DEPENDENCY_CHANGED
  | IMPLICIT_DEP_CHANGED
  | FLAGS_CHANGED
  | TOOLCHAIN_CHANGED
  | DEPENDENCY_DIRTY
deriving DecidableEq, Repr

/-! ## Filesystem model

A file either exists with some contents (a byte string) or is absent;
every path also has a modification time.  `fs::exists` is truth of
existence, reading an absent file fails, `fs::last_write_time` of an
absent path sets the error code (the code then returns 0). -/

structure FS where
  content : String → Option String
  mtime : String → Nat

def FS.exists_ (fs : FS) (p : String) : Bool := (fs.content p).isSome

/-- StateManager::get_file_timestamp: last_write_time, or 0 on error. -/
def get_file_timestamp (fs : FS) (p : String) : Nat :=
  if fs.exists_ p then fs.mtime p else 0

/-- StateManager::sha256_file: FNV-1a over file contents rendered as
"fnv1a:<16 hex digits>", or the empty string when the file cannot be opened. -/
def sha256_file (fs : FS) (p : String) : String :=
  match fs.content p with
  | none => ""
  | some data => "fnv1a:" ++ toHex16 (fnv1a_hash_str data)

/-! ## StateManager state (include/state/state_manager.hpp, private fields)

The record table and the dirty set are those of the StateManager; the two
caches are the mutable hash / timestamp caches.  The association list for
`records_` models the contents of the unordered_map (keyed lookup only). -/

structure SMState where
  records : List (String × ArtifactRecord)
  dirty_targets : List String
  toolchain : ToolchainInfo
  saved_toolchain : ToolchainInfo
  hash_cache : String → Option String
  ts_cache : String → Option Nat
  stats : BuildStats

/-- unordered_map::find on the record table. -/
def lookupRecord (records : List (String × ArtifactRecord)) (name : String) :
    Option ArtifactRecord :=
  (records.find? (fun e => e.1 = name)).map (·.2)

/-- The cache hit test of StateManager::get_cached_hash: an entry exists in
both caches and the current timestamp equals the cached one. -/
def cacheFresh (fs : FS) (sm : SMState) (p : String) : Bool :=
  match sm.hash_cache p, sm.ts_cache p with
  | some _, some ts => get_file_timestamp fs p = ts
  | _, _ => false

/-- StateManager::get_cached_hash: reuse the cached digest when the cached
mtime matches, otherwise recompute and refresh both caches. -/
def get_cached_hash (fs : FS) (sm : SMState) (p : String) : String × SMState :=
  if cacheFresh fs sm p then ((sm.hash_cache p).getD "", sm)
  else
    let hv := sha256_file fs p
    let ts := get_file_timestamp fs p
    (hv, { sm with
            hash_cache := fun q => if q = p then some hv else sm.hash_cache q,
            ts_cache := fun q => if q = p then some ts else sm.ts_cache q })

/-- StateManager::hash_file (delegates to get_cached_hash). -/
def hash_file (fs : FS) (sm : SMState) (p : String) : String × SMState :=
  get_cached_hash fs sm p

/-- StateManager::hash_flags (FNV-1a over the flag vector). -/
def hash_flags (flags : List String) : Nat := fnv1a_hash_list flags

/-- StateManager::file_changed: a missing file counts as changed, otherwise
compare the (cached) digest against the expected one. -/
def file_changed (fs : FS) (sm : SMState) (p expected : String) : Bool × SMState :=
  if ¬ fs.exists_ p then (true, sm)
  else
    let r := get_cached_hash fs sm p
    (r.1 ≠ expected, r.2)

/-- The source-hash accumulation loop of check_dirty / update_record:
concatenate the cached digests of the sources, threading the cache. -/
def combineHashes (fs : FS) : List String → String → SMState → String × SMState
  | [], acc, sm => (acc, sm)
  | p :: ps, acc, sm =>
    let r := get_cached_hash fs sm p
    combineHashes fs ps (acc ++ r.1) r.2

/-- The "fnv1a:<decimal>" rendering used for the combined source hash in
check_dirty and update_record (empty when the hash value is 0). -/
def sourceHashString (combined : String) : String :=
  if fnv1a_hash_str combined ≠ 0 then "fnv1a:" ++ toString (fnv1a_hash_str combined)
  else ""

/-- Rule 7 loop of check_dirty over the recorded direct dependencies. -/
def depsChangedLoop (fs : FS) : List DependencyInfo → SMState → Bool × SMState
  | [], sm => (false, sm)
  | d :: ds, sm =>
    let r := file_changed fs sm d.path d.hash
    if r.1 then (true, r.2) else depsChangedLoop fs ds r.2

/-- Rule 8 loop of check_dirty over the implicit dependencies: a missing
path, or an mtime newer than the build timestamp, is a change. -/
def implicitChanged (fs : FS) (bt : Nat) (l : List String) : Bool :=
  l.any (fun p => ¬ fs.exists_ p || get_file_timestamp fs p > bt)

/-- StateManager::check_dirty (state_manager.cpp, lines 121-191).
Returns the dirty reason together with the state after the cache reads. -/
def check_dirty (fs : FS) (sm : SMState) (name out : String)
    (sources flags : List String) : DirtyReason × SMState :=
  if ¬ fs.exists_ out then (.MISSING_ARTIFACT, sm)
  else
    match lookupRecord sm.records name with
    | none => (.MISSING_RECORD, sm)
    | some record =>
      if name ∈ sm.dirty_targets then (.DEPENDENCY_DIRTY, sm)
      else if sm.toolchain ≠ sm.saved_toolchain then (.TOOLCHAIN_CHANGED, sm)
      else if hash_flags flags ≠ record.command_hash then (.FLAGS_CHANGED, sm)
      else
        let rc := combineHashes fs sources "" sm
        if sourceHashString rc.1 ≠ record.source_hash then (.SOURCE_CHANGED, rc.2)
        else
          let rd := depsChangedLoop fs record.direct_dependencies rc.2
          if rd.1 then (.DEPENDENCY_CHANGED, rd.2)
          else if implicitChanged fs record.build_timestamp record.implicit_dependencies then
            (.IMPLICIT_DEP_CHANGED, rd.2)
          else (.CLEAN, rd.2)

/-! ## Specification-side dirty check (claim C1)

The specification describes check_dirty as "first matching reason in a
fixed priority order".  The conditions below are stated as pure values of
the pre-state: the digest a cached read yields for a path is
`cachedHashValue`.  A direct dependency counts as differing when the file
is missing (a missing file has no content hash). -/

/-- The digest value a cached read returns for a path on a given state. -/
def cachedHashValue (fs : FS) (sm : SMState) (p : String) : String :=
  (get_cached_hash fs sm p).1

/-- Concatenation of a list of strings. -/
def strConcat : List String → String
  | [] => ""
  | s :: ss => s ++ strConcat ss

/-- The combined source hash of the specification: per-source digests
concatenated in declared order, then hashed. -/
def combinedSourceHash (fs : FS) (sm : SMState) (sources : List String) : String :=
  sourceHashString (strConcat (sources.map (cachedHashValue fs sm)))

/-- A direct dependency differs when its file is missing or its current
content digest is not the recorded one. -/
def depDiffers (fs : FS) (sm : SMState) (d : DependencyInfo) : Bool :=
  ¬ fs.exists_ d.path || cachedHashValue fs sm d.path ≠ d.hash

/-- The dirty check as the specification states it: the first condition
that holds in the fixed priority order decides the reason; otherwise Clean. -/
def checkDirtySpec (fs : FS) (sm : SMState) (name out : String)
    (sources flags : List String) : DirtyReason :=
  let rec0 := (lookupRecord sm.records name).getD ArtifactRecord.default
  let conds : List (Bool × DirtyReason) :=
    [ (¬ fs.exists_ out, .MISSING_ARTIFACT),
      ((lookupRecord sm.records name).isNone, .MISSING_RECORD),
      (name ∈ sm.dirty_targets, .DEPENDENCY_DIRTY),
      (sm.toolchain ≠ sm.saved_toolchain, .TOOLCHAIN_CHANGED),
      (hash_flags flags ≠ rec0.command_hash, .FLAGS_CHANGED),
      (combinedSourceHash fs sm sources ≠ rec0.source_hash, .SOURCE_CHANGED),
      (rec0.direct_dependencies.any (depDiffers fs sm), .DEPENDENCY_CHANGED),
      (implicitChanged fs rec0.build_timestamp rec0.implicit_dependencies,
        .IMPLICIT_DEP_CHANGED) ]
  ((conds.find? (·.1)).map (·.2)).getD .CLEAN

/-! ## Lemmas about the hash cache -/

lemma cachedHashValue_congr (fs : FS) (sm1 sm2 : SMState) (p : String)
    (h1 : sm1.hash_cache p = sm2.hash_cache p) (h2 : sm1.ts_cache p = sm2.ts_cache p) :
    cachedHashValue fs sm1 p = cachedHashValue fs sm2 p := by
  have hc : cacheFresh fs sm1 p = cacheFresh fs sm2 p := by
    unfold cacheFresh
    rw [h1, h2]
  by_cases hf : cacheFresh fs sm1 p
  · have hf2 : cacheFresh fs sm2 p := by rw [← hc]; exact hf
    unfold cachedHashValue get_cached_hash
    simp [hf, hf2, h1]
  · have hf2 : ¬ cacheFresh fs sm2 p = true := by rw [← hc]; exact hf
    unfold cachedHashValue get_cached_hash
    simp [hf, hf2]

/-- A cached read does not change the digest any later cached read yields,
for any path: a refreshed entry stores exactly the recomputed digest. -/
lemma cachedHashValue_gch (fs : FS) (sm : SMState) (q p : String) :
    cachedHashValue fs (get_cached_hash fs sm q).2 p = cachedHashValue fs sm p := by
  by_cases hf : cacheFresh fs sm q
  · simp [get_cached_hash, hf]
  · by_cases hpq : p = q
    · subst hpq
      have hval : cachedHashValue fs sm p = sha256_file fs p := by
        unfold cachedHashValue get_cached_hash
        simp [hf]
      rw [hval]
      unfold cachedHashValue get_cached_hash
      simp only [get_cached_hash, hf, if_false, Bool.false_eq_true, if_neg]
      have hfresh2 : cacheFresh fs
          { sm with
            hash_cache := fun q2 => if q2 = p then some (sha256_file fs p) else sm.hash_cache q2,
            ts_cache := fun q2 => if q2 = p then some (get_file_timestamp fs p) else sm.ts_cache q2 }
          p = true := by
        unfold cacheFresh
        simp
      simp [hfresh2]
    · apply cachedHashValue_congr
      · unfold get_cached_hash
        simp [hf, hpq]
      · unfold get_cached_hash
        simp [hf, hpq]

/-- Value-preservation between two cache states: every cached read yields
the same digest. -/
def CacheValuesEq (fs : FS) (sm sm' : SMState) : Prop :=
  ∀ p, cachedHashValue fs sm' p = cachedHashValue fs sm p

lemma cacheValuesEq_refl (fs : FS) (sm : SMState) : CacheValuesEq fs sm sm :=
  fun _ => rfl

lemma cacheValuesEq_gch (fs : FS) (sm sm' : SMState) (q : String)
    (h : CacheValuesEq fs sm sm') :
    CacheValuesEq fs sm (get_cached_hash fs sm' q).2 := by
  intro p
  rw [cachedHashValue_gch]
  exact h p

lemma combineHashes_spec (fs : FS) (sm : SMState) :
    ∀ (l : List String) (acc : String) (sm' : SMState), CacheValuesEq fs sm sm' →
    (combineHashes fs l acc sm').1 = acc ++ strConcat (l.map (cachedHashValue fs sm)) ∧
    CacheValuesEq fs sm (combineHashes fs l acc sm').2 := by
  intro l
  induction l with
  | nil =>
    intro acc sm' h
    constructor
    · simp [combineHashes, strConcat, String.append_empty]
    · exact h
  | cons p ps ih =>
    intro acc sm' h
    have hfst : (get_cached_hash fs sm' p).1 = cachedHashValue fs sm p := h p
    have hrec := ih (acc ++ (get_cached_hash fs sm' p).1) (get_cached_hash fs sm' p).2
      (cacheValuesEq_gch fs sm sm' p h)
    constructor
    · have := hrec.1
      rw [show combineHashes fs (p :: ps) acc sm'
            = combineHashes fs ps (acc ++ (get_cached_hash fs sm' p).1)
                (get_cached_hash fs sm' p).2 from rfl]
      rw [this, hfst]
      simp [strConcat, String.append_assoc]
    · exact hrec.2

lemma file_changed_spec (fs : FS) (sm sm' : SMState) (p expected : String)
    (h : CacheValuesEq fs sm sm') :
    (file_changed fs sm' p expected).1 = depDiffers fs sm ⟨p, expected⟩ ∧
    CacheValuesEq fs sm (file_changed fs sm' p expected).2 := by
  have hc : (get_cached_hash fs sm' p).1 = cachedHashValue fs sm p := h p
  by_cases he : fs.exists_ p
  · constructor
    · simp [file_changed, depDiffers, he, hc]
    · have hsnd : (file_changed fs sm' p expected).2 = (get_cached_hash fs sm' p).2 := by
        simp [file_changed, he]
      rw [hsnd]
      exact cacheValuesEq_gch fs sm sm' p h
  · constructor
    · simp [file_changed, depDiffers, he]
    · have hsnd : (file_changed fs sm' p expected).2 = sm' := by
        simp [file_changed, he]
      rw [hsnd]
      exact h

lemma depsChangedLoop_spec (fs : FS) (sm : SMState) :
    ∀ (l : List DependencyInfo) (sm' : SMState), CacheValuesEq fs sm sm' →
    (depsChangedLoop fs l sm').1 = l.any (depDiffers fs sm) ∧
    CacheValuesEq fs sm (depsChangedLoop fs l sm').2 := by
  intro l
  induction l with
  | nil =>
    intro sm' h
    exact ⟨rfl, h⟩
  | cons d ds ih =>
    intro sm' h
    obtain ⟨dp, dh⟩ := d
    have hfc := file_changed_spec fs sm sm' dp dh h
    have hstep : depsChangedLoop fs (⟨dp, dh⟩ :: ds) sm' =
        if (file_changed fs sm' dp dh).1 then (true, (file_changed fs sm' dp dh).2)
        else depsChangedLoop fs ds (file_changed fs sm' dp dh).2 := rfl
    by_cases hd : (file_changed fs sm' dp dh).1 = true
    · rw [hstep, if_pos hd]
      constructor
      · rw [List.any_cons, ← hfc.1, hd]
        simp
      · exact hfc.2
    · have hrec := ih (file_changed fs sm' dp dh).2 hfc.2
      rw [hstep, if_neg hd]
      constructor
      · have hdf : depDiffers fs sm ⟨dp, dh⟩ = false := by
          rw [← hfc.1]
          exact Bool.eq_false_iff.mpr hd
        rw [List.any_cons, hdf, hrec.1]
        simp
      · exact hrec.2

/-! ## Frame relation for check_dirty (claim C9) -/

/-- The state after a query differs from the state before it only in the
two path-keyed caches, and a changed cache entry holds exactly the freshly
computed digest together with the observed modification time. -/
def CacheEvolves (fs : FS) (sm sm' : SMState) : Prop :=
  sm'.records = sm.records ∧
  sm'.dirty_targets = sm.dirty_targets ∧
  sm'.toolchain = sm.toolchain ∧
  sm'.saved_toolchain = sm.saved_toolchain ∧
  sm'.stats = sm.stats ∧
  ∀ p, (sm'.hash_cache p = sm.hash_cache p ∧ sm'.ts_cache p = sm.ts_cache p) ∨
       (sm'.hash_cache p = some (sha256_file fs p) ∧
        sm'.ts_cache p = some (get_file_timestamp fs p))

lemma cacheEvolves_refl (fs : FS) (sm : SMState) : CacheEvolves fs sm sm :=
  ⟨rfl, rfl, rfl, rfl, rfl, fun _ => Or.inl ⟨rfl, rfl⟩⟩

lemma cacheEvolves_trans (fs : FS) (sm1 sm2 sm3 : SMState)
    (h12 : CacheEvolves fs sm1 sm2) (h23 : CacheEvolves fs sm2 sm3) :
    CacheEvolves fs sm1 sm3 := by
  obtain ⟨a12, b12, c12, d12, e12, f12⟩ := h12
  obtain ⟨a23, b23, c23, d23, e23, f23⟩ := h23
  refine ⟨a23.trans a12, b23.trans b12, c23.trans c12, d23.trans d12, e23.trans e12, ?_⟩
  intro p
  rcases f23 p with ⟨hh, ht⟩ | hfresh
  · rcases f12 p with ⟨hh2, ht2⟩ | hfresh2
    · exact Or.inl ⟨hh.trans hh2, ht.trans ht2⟩
    · exact Or.inr ⟨hh.trans hfresh2.1, ht.trans hfresh2.2⟩
  · exact Or.inr hfresh

lemma gch_evolves (fs : FS) (sm : SMState) (q : String) :
    CacheEvolves fs sm (get_cached_hash fs sm q).2 := by
  by_cases hf : cacheFresh fs sm q
  · simp only [get_cached_hash, hf, if_pos]
    exact cacheEvolves_refl fs sm
  · unfold get_cached_hash
    rw [if_neg hf]
    refine ⟨rfl, rfl, rfl, rfl, rfl, ?_⟩
    intro p
    by_cases hpq : p = q
    · subst hpq
      exact Or.inr ⟨by simp, by simp⟩
    · exact Or.inl ⟨by simp [hpq], by simp [hpq]⟩

lemma combineHashes_evolves (fs : FS) :
    ∀ (l : List String) (acc : String) (sm : SMState),
    CacheEvolves fs sm (combineHashes fs l acc sm).2 := by
  intro l
  induction l with
  | nil => intro acc sm; exact cacheEvolves_refl fs sm
  | cons p ps ih =>
    intro acc sm
    have h1 := gch_evolves fs sm p
    have h2 := ih (acc ++ (get_cached_hash fs sm p).1) (get_cached_hash fs sm p).2
    exact cacheEvolves_trans fs _ _ _ h1 h2

lemma file_changed_evolves (fs : FS) (sm : SMState) (p expected : String) :
    CacheEvolves fs sm (file_changed fs sm p expected).2 := by
  by_cases he : fs.exists_ p
  · have hsnd : (file_changed fs sm p expected).2 = (get_cached_hash fs sm p).2 := by
      simp [file_changed, he]
    rw [hsnd]
    exact gch_evolves fs sm p
  · have hsnd : (file_changed fs sm p expected).2 = sm := by
      simp [file_changed, he]
    rw [hsnd]
    exact cacheEvolves_refl fs sm

lemma depsChangedLoop_evolves (fs : FS) :
    ∀ (l : List DependencyInfo) (sm : SMState),
    CacheEvolves fs sm (depsChangedLoop fs l sm).2 := by
  intro l
  induction l with
  | nil => intro sm; exact cacheEvolves_refl fs sm
  | cons d ds ih =>
    intro sm
    obtain ⟨dp, dh⟩ := d
    have hstep : depsChangedLoop fs (⟨dp, dh⟩ :: ds) sm =
        if (file_changed fs sm dp dh).1 then (true, (file_changed fs sm dp dh).2)
        else depsChangedLoop fs ds (file_changed fs sm dp dh).2 := rfl
    by_cases hd : (file_changed fs sm dp dh).1 = true
    · rw [hstep, if_pos hd]
      exact file_changed_evolves fs sm dp dh
    · rw [hstep, if_neg hd]
      exact cacheEvolves_trans fs _ _ _ (file_changed_evolves fs sm dp dh)
        (ih (file_changed fs sm dp dh).2)

/-- Claim C1: check_dirty returns the first matching reason in the fixed
priority order MissingArtifact, MissingRecord, DependencyDirty,
ToolchainChanged, FlagsChanged, SourceChanged, DependencyChanged,
ImplicitDepChanged, and Clean when no condition matches. -/
theorem aria_C1_check_dirty_priority (fs : FS) (sm : SMState) (name out : String)
    (sources flags : List String) :
    (check_dirty fs sm name out sources flags).1 =
    checkDirtySpec fs sm name out sources flags := by
  unfold check_dirty checkDirtySpec
  by_cases h1 : fs.exists_ out
  · cases hrec : lookupRecord sm.records name with
    | none => simp [h1, hrec, List.find?]
    | some record =>
      by_cases h3 : name ∈ sm.dirty_targets
      · simp [h1, hrec, h3, List.find?]
      · by_cases h4 : sm.toolchain = sm.saved_toolchain
        · by_cases h5 : hash_flags flags = record.command_hash
          · have hcomb := combineHashes_spec fs sm sources "" sm (cacheValuesEq_refl fs sm)
            have hrc1 : (combineHashes fs sources "" sm).1 =
                strConcat (sources.map (cachedHashValue fs sm)) := by
              rw [hcomb.1, String.empty_append]
            have hdeps := depsChangedLoop_spec fs sm record.direct_dependencies
              (combineHashes fs sources "" sm).2 hcomb.2
            by_cases h6 : sourceHashString (combineHashes fs sources "" sm).1 =
                record.source_hash
            · have h6s : combinedSourceHash fs sm sources = record.source_hash := by
                rw [combinedSourceHash, ← hrc1]; exact h6
              by_cases h7 : (depsChangedLoop fs record.direct_dependencies
                  (combineHashes fs sources "" sm).2).1 = true
              · have h7s : record.direct_dependencies.any (depDiffers fs sm) = true := by
                  rw [← hdeps.1]; exact h7
                simp [h1, hrec, h3, h4, h5, h6, h6s, h7, h7s, List.find?]
              · have h7s : record.direct_dependencies.any (depDiffers fs sm) = false := by
                  rw [← hdeps.1]; exact Bool.eq_false_iff.mpr h7
                by_cases h8 : implicitChanged fs record.build_timestamp
                    record.implicit_dependencies = true
                · simp [h1, hrec, h3, h4, h5, h6, h6s, h7, h7s, h8, List.find?]
                · simp [h1, hrec, h3, h4, h5, h6, h6s, h7, h7s, h8, List.find?]
            · have h6s : ¬ combinedSourceHash fs sm sources = record.source_hash := by
                rw [combinedSourceHash, ← hrc1]; exact h6
              simp [h1, hrec, h3, h4, h5, h6, h6s, List.find?]
          · simp [h1, hrec, h3, h4, h5, List.find?]
        · simp [h1, hrec, h3, h4, List.find?]
  · simp [h1, List.find?]

/-- Claim C9: check_dirty is a pure query with respect to the build state:
the record table, the dirty set, the toolchain fields and the statistics of
the resulting state are those of the input state, and every hash-cache and
timestamp-cache entry is either unchanged or refreshed to the recomputed
digest with its observed modification time. -/
theorem aria_C9_check_dirty_frame (fs : FS) (sm : SMState) (name out : String)
    (sources flags : List String) :
    CacheEvolves fs sm (check_dirty fs sm name out sources flags).2 := by
  unfold check_dirty
  by_cases h1 : fs.exists_ out
  · cases hrec : lookupRecord sm.records name with
    | none =>
      simp only [h1, not_true_eq_false, if_false, hrec]
      exact cacheEvolves_refl fs sm
    | some record =>
      simp only [h1, not_true_eq_false, if_false, hrec]
      by_cases h3 : name ∈ sm.dirty_targets
      · rw [if_pos h3]
        exact cacheEvolves_refl fs sm
      · rw [if_neg h3]
        by_cases h4 : sm.toolchain ≠ sm.saved_toolchain
        · rw [if_pos h4]
          exact cacheEvolves_refl fs sm
        · rw [if_neg h4]
          by_cases h5 : hash_flags flags ≠ record.command_hash
          · rw [if_pos h5]
            exact cacheEvolves_refl fs sm
          · rw [if_neg h5]
            have hce1 := combineHashes_evolves fs sources "" sm
            have hce2 := depsChangedLoop_evolves fs record.direct_dependencies
              (combineHashes fs sources "" sm).2
            have hce12 := cacheEvolves_trans fs _ _ _ hce1 hce2
            by_cases h6 : sourceHashString (combineHashes fs sources "" sm).1 ≠
                record.source_hash
            · rw [if_pos h6]
              exact hce1
            · rw [if_neg h6]
              by_cases h7 : (depsChangedLoop fs record.direct_dependencies
                  (combineHashes fs sources "" sm).2).1 = true
              · rw [if_pos h7]
                exact hce12
              · rw [if_neg h7]
                by_cases h8 : implicitChanged fs record.build_timestamp
                    record.implicit_dependencies = true
                · rw [if_pos h8]
                  exact hce12
                · rw [if_neg h8]
                  exact hce12
  · simp only [h1, not_false_eq_true, if_true]
    exact cacheEvolves_refl fs sm

/-! ## Unreadable files (claim C10) -/

lemma gch_unreadable (fs : FS) (sm : SMState) (p : String)
    (hc : fs.content p = none)
    (hh : sm.hash_cache p = none ∨ sm.hash_cache p = some "") :
    (get_cached_hash fs sm p).1 = "" ∧
    ∀ q, (get_cached_hash fs sm p).2.hash_cache q = sm.hash_cache q ∨
         (get_cached_hash fs sm p).2.hash_cache q = some "" := by
  have hsha : sha256_file fs p = "" := by simp [sha256_file, hc]
  by_cases hf : cacheFresh fs sm p
  · rcases hh with hnone | hsome
    · exfalso
      unfold cacheFresh at hf
      rw [hnone] at hf
      simp at hf
    · constructor
      · simp [get_cached_hash, hf, hsome]
      · intro q
        left
        simp [get_cached_hash, hf]
  · constructor
    · simp [get_cached_hash, hf, hsha]
    · intro q
      by_cases hq : q = p
      · subst hq
        right
        simp [get_cached_hash, hf, hsha]
      · left
        simp [get_cached_hash, hf, hq]

lemma combineHashes_unreadable (fs : FS) :
    ∀ (l : List String) (acc : String) (sm : SMState),
    (∀ q ∈ l, fs.content q = none ∧ (sm.hash_cache q = none ∨ sm.hash_cache q = some "")) →
    (combineHashes fs l acc sm).1 = acc := by
  intro l
  induction l with
  | nil => intro acc sm _; rfl
  | cons p ps ih =>
    intro acc sm h
    have hp := h p (List.mem_cons_self p ps)
    have hg := gch_unreadable fs sm p hp.1 hp.2
    have hstep : combineHashes fs (p :: ps) acc sm =
        combineHashes fs ps (acc ++ (get_cached_hash fs sm p).1)
          (get_cached_hash fs sm p).2 := rfl
    rw [hstep, hg.1, String.append_empty]
    apply ih
    intro q hq
    refine ⟨(h q (List.mem_cons_of_mem p hq)).1, ?_⟩
    rcases hg.2 q with heq | hempty
    · rw [heq]
      exact (h q (List.mem_cons_of_mem p hq)).2
    · exact Or.inr hempty

/-- Claim C10: hash_file yields the empty string for a path with no
readable content, such a file contributes an empty segment to the combined
source hash, and two source lists made only of unreadable files produce the
same combined source hash whatever the paths are. -/
theorem aria_C10_unreadable_sources (fs1 fs2 : FS) (sm1 sm2 : SMState) (p : String)
    (l1 l2 : List String)
    (hp : fs1.content p = none) (hcp : sm1.hash_cache p = none)
    (h1 : ∀ q ∈ l1, fs1.content q = none ∧ sm1.hash_cache q = none)
    (h2 : ∀ q ∈ l2, fs2.content q = none ∧ sm2.hash_cache q = none) :
    (hash_file fs1 sm1 p).1 = "" ∧
    (combineHashes fs1 l1 "" sm1).1 = (combineHashes fs2 l2 "" sm2).1 ∧
    sourceHashString (combineHashes fs1 l1 "" sm1).1 =
      sourceHashString (combineHashes fs2 l2 "" sm2).1 := by
  have ha := combineHashes_unreadable fs1 l1 "" sm1
    (fun q hq => ⟨(h1 q hq).1, Or.inl (h1 q hq).2⟩)
  have hb := combineHashes_unreadable fs2 l2 "" sm2
    (fun q hq => ⟨(h2 q hq).1, Or.inl (h2 q hq).2⟩)
  refine ⟨(gch_unreadable fs1 sm1 p hp (Or.inl hcp)).1, ?_, ?_⟩
  · rw [ha, hb]
  · rw [ha, hb]

/-- An empty filesystem: no file exists. -/
def fsEmpty : FS := ⟨fun _ => none, fun _ => 0⟩

/-- A fresh StateManager state: no records, no dirty marks, empty caches. -/
def smEmpty : SMState :=
  ⟨[], [], ⟨"", ""⟩, ⟨"", ""⟩, fun _ => none, fun _ => none, ⟨0, 0, 0, 0, 0, 0⟩⟩

/-- Witness for C10 at concrete unreadable paths. -/
theorem aria_C10_witness :
    (hash_file fsEmpty smEmpty "ghost.aria").1 = "" ∧
    (combineHashes fsEmpty ["a.aria"] "" smEmpty).1 =
      (combineHashes fsEmpty ["b.aria", "c.aria"] "" smEmpty).1 ∧
    sourceHashString (combineHashes fsEmpty ["a.aria"] "" smEmpty).1 =
      sourceHashString (combineHashes fsEmpty ["b.aria", "c.aria"] "" smEmpty).1 :=
  aria_C10_unreadable_sources fsEmpty fsEmpty smEmpty smEmpty "ghost.aria"
    ["a.aria"] ["b.aria", "c.aria"] rfl rfl
    (fun _ _ => ⟨rfl, rfl⟩) (fun _ _ => ⟨rfl, rfl⟩)

/-! ## Serialization (state_manager.cpp, lines 471-644)

std::string positions are Nats; std::string::npos is 2^64 - 1 and the
arithmetic `find(...) + 1` wraps modulo 2^64 as it does on size_t. -/

def NPOS : Nat := U64 - 1

/-- size_t addition (wraps modulo 2^64). -/
def npAdd (a b : Nat) : Nat := (a + b) % U64

def findFromAux (needle : List Char) : List Char → Nat → Option Nat
  | [], idx => if needle.isPrefixOf ([] : List Char) then some idx else none
  | c :: t, idx =>
    if needle.isPrefixOf (c :: t) then some idx else findFromAux needle t (idx + 1)

/-- std::string::find(needle, start): first match position at or after
start, or npos. -/
def cppFind (hay needle : String) (start : Nat) : Nat :=
  if start ≤ hay.length then (findFromAux needle.data (hay.data.drop start) start).getD NPOS
  else NPOS

/-- std::string::rfind(needle, pos): last match position at or before pos,
or npos. -/
def cppRfind (hay needle : String) (pos : Nat) : Nat :=
  (((List.range (min pos hay.length + 1)).filter
      (fun i => needle.data.isPrefixOf (hay.data.drop i))).getLast?).getD NPOS

/-- std::string::substr(start, len). -/
def cppSubstr (hay : String) (start len : Nat) : String :=
  ⟨(hay.data.drop start).take len⟩

/-- std::stoull on a digit string. -/
def parseNatDigits (s : String) : Nat :=
  s.data.foldl (fun acc c => acc * 10 + (c.toNat - 48)) 0

def MANIFEST_VERSION : String := "1.0"

/-- Join with a separator, as the first_dep / first_target flag loops do. -/
def sepConcat (sep : String) : List String → String
  | [] => ""
  | [x] => x
  | x :: y :: xs => x ++ sep ++ sepConcat sep (y :: xs)

/-- One serialized dependency object. -/
def serializeDep (d : DependencyInfo) : String :=
  "\x7b\"path\": \"" ++ d.path ++ "\", \"hash\": \"" ++ d.hash ++ "\"\x7d"

/-- One serialized target entry of StateManager::serialize. -/
def serializeRecordEntry (name : String) (r : ArtifactRecord) : String :=
  "    \"" ++ name ++ "\": \x7b\n" ++
  "      \"artifact_path\": \"" ++ r.output_path ++ "\",\n" ++
  "      \"source_hash\": \"" ++ r.source_hash ++ "\",\n" ++
  "      \"command_hash\": " ++ toString r.command_hash ++ ",\n" ++
  "      \"source_timestamp\": " ++ toString r.source_timestamp ++ ",\n" ++
  "      \"build_timestamp\": " ++ toString r.build_timestamp ++ ",\n" ++
  "      \"build_duration_ms\": " ++ toString r.build_duration_ms ++ ",\n" ++
  "      \"dependencies\": [" ++
    sepConcat ", " (r.direct_dependencies.map serializeDep) ++ "],\n" ++
  "      \"implicit_inputs\": [" ++
    sepConcat ", " (r.implicit_dependencies.map (fun i => "\"" ++ i ++ "\"")) ++ "]\n" ++
  "    \x7d"

/-- StateManager::serialize.  The record list stands for the iteration
order of the records_ unordered_map. -/
def serialize (tc : ToolchainInfo) (records : List (String × ArtifactRecord)) : String :=
  "\x7b\n" ++
  "  \"version\": \"" ++ MANIFEST_VERSION ++ "\",\n" ++
  "  \"toolchain\": \x7b\n" ++
  "    \"compiler_version\": \"" ++ tc.compiler_version ++ "\",\n" ++
  "    \"compiler_hash\": \"" ++ tc.compiler_hash ++ "\"\n" ++
  "  \x7d,\n" ++
  "  \"targets\": \x7b\n" ++
  sepConcat ",\n" (records.map (fun e => serializeRecordEntry e.1 e.2)) ++
  "\n  \x7d\n" ++
  "\x7d\n"

/-- unordered_map operator[] assignment on the record table. -/
def insertRecord (records : List (String × ArtifactRecord)) (name : String)
    (r : ArtifactRecord) : List (String × ArtifactRecord) :=
  if (records.find? (fun e => e.1 = name)).isSome then
    records.map (fun e => if e.1 = name then (name, r) else e)
  else records ++ [(name, r)]

/-- The per-record loop of StateManager::deserialize (lines 567-641). -/
def parseTargetsLoop (s : String) : Nat → Nat → List (String × ArtifactRecord) →
    List (String × ArtifactRecord)
  | 0, _, recs => recs
  | fuel + 1, pos0, recs =>
    let pos := cppFind s "\"artifact_path\"" pos0
    if pos = NPOS then recs
    else
      let name_end := cppRfind s "\":" pos
      if name_end = NPOS then recs
      else
        let name_start := cppRfind s "\"" (name_end - 1)
        if name_start = NPOS then recs
        else
          let tname := cppSubstr s (name_start + 1) (name_end - name_start - 1)
          let ap_a := npAdd (cppFind s ":" pos) 1
          let ap_b := npAdd (cppFind s "\"" ap_a) 1
          let ap_c := cppFind s "\"" ap_b
          let outp := if ap_b ≠ NPOS ∧ ap_c ≠ NPOS then cppSubstr s ap_b (ap_c - ap_b) else ""
          let sh_pos := cppFind s "\"source_hash\"" pos
          let srch :=
            if sh_pos ≠ NPOS ∧ sh_pos < pos + 500 then
              let a := npAdd (cppFind s ":" sh_pos) 1
              let b := npAdd (cppFind s "\"" a) 1
              let c := cppFind s "\"" b
              if b ≠ NPOS ∧ c ≠ NPOS then cppSubstr s b (c - b) else ""
            else ""
          let ch_pos := cppFind s "\"command_hash\"" pos
          let cmdh :=
            if ch_pos ≠ NPOS ∧ ch_pos < pos + 500 then
              let a0 := npAdd (cppFind s ":" ch_pos) 1
              let a := a0 + ((s.data.drop a0).takeWhile (fun ch => ch = ' ' ∨ ch = '\t')).length
              let b := a + ((s.data.drop a).takeWhile Char.isDigit).length
              if a < b then parseNatDigits (cppSubstr s a (b - a)) else 0
            else 0
          let st_pos := cppFind s "\"source_timestamp\"" pos
          let stv :=
            if st_pos ≠ NPOS ∧ st_pos < pos + 600 then
              let a0 := npAdd (cppFind s ":" st_pos) 1
              let a := a0 + ((s.data.drop a0).takeWhile (fun ch => ¬ ch.isDigit)).length
              let b := a + ((s.data.drop a).takeWhile Char.isDigit).length
              if a < b then parseNatDigits (cppSubstr s a (b - a)) else 0
            else 0
          let bt_pos := cppFind s "\"build_timestamp\"" pos
          let btv :=
            if bt_pos ≠ NPOS ∧ bt_pos < pos + 700 then
              let a0 := npAdd (cppFind s ":" bt_pos) 1
              let a := a0 + ((s.data.drop a0).takeWhile (fun ch => ¬ ch.isDigit)).length
              let b := a + ((s.data.drop a).takeWhile Char.isDigit).length
              if a < b then parseNatDigits (cppSubstr s a (b - a)) else 0
            else 0
          let record : ArtifactRecord := ⟨tname, outp, srch, cmdh, [], [], stv, btv, 0⟩
          let recs2 := if record.is_valid then insertRecord recs tname record else recs
          parseTargetsLoop s fuel (pos + 100) recs2

/-- StateManager::deserialize: returns the success flag, the saved
toolchain after the parse, and the parsed record table. -/
def deserialize (saved0 : ToolchainInfo) (s : String) :
    Bool × ToolchainInfo × List (String × ArtifactRecord) :=
  let version_pos := cppFind s "\"version\"" 0
  if version_pos = NPOS then (false, saved0, [])
  else
    let tcp := cppFind s "\"compiler_version\"" 0
    let tc1 :=
      if tcp ≠ NPOS then
        let a := npAdd (cppFind s ":" tcp) 1
        let b := npAdd (cppFind s "\"" a) 1
        let c := cppFind s "\"" b
        if b ≠ NPOS ∧ c ≠ NPOS then
          { saved0 with compiler_version := cppSubstr s b (c - b) }
        else saved0
      else saved0
    let hcp := cppFind s "\"compiler_hash\"" 0
    let tc2 :=
      if hcp ≠ NPOS then
        let a := npAdd (cppFind s ":" hcp) 1
        let b := npAdd (cppFind s "\"" a) 1
        let c := cppFind s "\"" b
        if b ≠ NPOS ∧ c ≠ NPOS then
          { tc1 with compiler_hash := cppSubstr s b (c - b) }
        else tc1
      else tc1
    let targets_pos := cppFind s "\"targets\"" 0
    if targets_pos = NPOS then (true, tc2, [])
    else (true, tc2, parseTargetsLoop s (s.length / 100 + 2) targets_pos [])

/-! ## save (state_manager.cpp, lines 86-106)

The environment models the outcomes of the filesystem calls: whether the
parent directory is missing and whether create_directories succeeds,
whether opening the ofstream succeeds (opening truncates the file), and
how many bytes the stream accepts before failing (none = no failure). -/

structure SaveEnv where
  parent_missing : Bool
  create_dirs_ok : Bool
  open_ok : Bool
  write_capacity : Option Nat

/-- StateManager::save on a state file holding `old`: directory creation
failure or open failure returns false leaving the file as it was; a
successful open truncates the file and the write leaves the accepted
prefix behind, with good() reporting whether everything was written. -/
def save (env : SaveEnv) (old : Option String) (manifest : String) :
    Option String × Bool :=
  if env.parent_missing ∧ ¬ env.create_dirs_ok then (old, false)
  else if ¬ env.open_ok then (old, false)
  else
    match env.write_capacity with
    | none => (some manifest, true)
    | some n => (some ⟨manifest.data.take n⟩, manifest.length ≤ n)

set_option maxRecDepth 1000000

/-- A manifest record with a nonzero build duration, one direct dependency
and one implicit dependency. -/
def recC4 : ArtifactRecord :=
  ⟨"app", "build/app", "fnv1a:abc", 42, [⟨"dep.aria", "fnv1a:def"⟩], ["res.bin"], 7, 9, 5⟩

/-- Claim C4: serializing a manifest holding recC4 and deserializing the
produced text keeps version, toolchain, output path, source hash, command
hash and the two timestamps, but silently resets build_duration_ms to 0 and
drops the direct and implicit dependencies, although serialize wrote all
three; the round trip is not the identity on these recognized fields. -/
theorem aria_C4_roundtrip_drops_fields :
    (deserialize ⟨"", ""⟩ (serialize ⟨"v1", "h1"⟩ [("app", recC4)])).1 = true ∧
    (deserialize ⟨"", ""⟩ (serialize ⟨"v1", "h1"⟩ [("app", recC4)])).2.1 = ⟨"v1", "h1"⟩ ∧
    (deserialize ⟨"", ""⟩ (serialize ⟨"v1", "h1"⟩ [("app", recC4)])).2.2 =
      [("app", ⟨"app", "build/app", "fnv1a:abc", 42, [], [], 7, 9, 0⟩)] ∧
    recC4.build_duration_ms = 5 ∧
    recC4.direct_dependencies = [⟨"dep.aria", "fnv1a:def"⟩] ∧
    recC4.implicit_dependencies = ["res.bin"] := by
  refine ⟨by rfl, by rfl, by rfl, rfl, rfl, rfl⟩

/-- A manifest record used for the save counterexample. -/
def recC7 : ArtifactRecord :=
  ⟨"app", "build/app", "fnv1a:9", 7, [], [], 1, 2, 3⟩

/-- Counterexample to claim C7: save does not write to a temporary file;
when the stream fails after opening (capacity 0), the state file holds the
empty string, which is neither the previous manifest nor the new one, so a
save failure does not leave the previous state file unchanged. -/
theorem aria_C7_counterexample :
    save ⟨false, true, true, some 0⟩ (some "OLD-MANIFEST")
      (serialize ⟨"v1", "h1"⟩ [("app", recC7)]) = (some "", false) ∧
    (some "" : Option String) ≠ some "OLD-MANIFEST" ∧
    (some "" : Option String) ≠ some (serialize ⟨"v1", "h1"⟩ [("app", recC7)]) := by
  refine ⟨by rfl, by decide, by decide⟩

/-- Claim C7 amended: save writes the serialized manifest directly to the
state file (truncate on open, then write): on success the file holds
exactly the new manifest; when the directory cannot be created or the file
cannot be opened the previous file is unchanged; but when the write fails
after opening, the file holds a truncated prefix of the new manifest and
the previous manifest is lost. -/
theorem aria_C7_save_direct_write (env : SaveEnv) (old : Option String)
    (tc : ToolchainInfo) (records : List (String × ArtifactRecord)) :
    ((save env old (serialize tc records)).2 = true →
      (save env old (serialize tc records)).1 = some (serialize tc records)) ∧
    ((env.parent_missing ∧ ¬ env.create_dirs_ok) ∨ env.open_ok = false →
      (save env old (serialize tc records)).1 = old) ∧
    (¬ (env.parent_missing ∧ ¬ env.create_dirs_ok) → env.open_ok = true →
      ∀ n, env.write_capacity = some n →
        (save env old (serialize tc records)).1 =
          some ⟨(serialize tc records).data.take n⟩ ∧
        ((save env old (serialize tc records)).2 = true ↔
          (serialize tc records).length ≤ n)) := by
  by_cases h1 : env.parent_missing ∧ ¬ env.create_dirs_ok
  · unfold save
    rw [if_pos h1]
    refine ⟨?_, fun _ => rfl, ?_⟩
    · intro h
      simp at h
    · intro h2
      exact absurd h1 h2
  · unfold save
    rw [if_neg h1]
    by_cases h2 : env.open_ok
    · rw [if_neg (by simp [h2])]
      cases hcap : env.write_capacity with
      | none =>
        refine ⟨fun _ => rfl, ?_, ?_⟩
        · intro hor
          rcases hor with hpar | hopen
          · exact absurd hpar h1
          · rw [h2] at hopen
            simp at hopen
        · intro _ _ n hn
          exact Option.noConfusion hn
      | some n0 =>
        refine ⟨?_, ?_, ?_⟩
        · intro hgood
          have hle : (serialize tc records).length ≤ n0 := by
            simpa using hgood
          have htake : (serialize tc records).data.take n0 = (serialize tc records).data :=
            List.take_of_length_le hle
          simp [htake]
        · intro hor
          rcases hor with hpar | hopen
          · exact absurd hpar h1
          · rw [h2] at hopen
            simp at hopen
        · intro _ _ n hn
          injection hn with hn
          subst hn
          exact ⟨rfl, by simp⟩
    · rw [if_pos (by simpa using h2)]
      refine ⟨?_, fun _ => rfl, ?_⟩
      · intro h
        simp at h
      · intro _ hopen
        exact absurd hopen (by simpa using h2)

/-- Witness for the amended C7 at a concrete successful save. -/
theorem aria_C7_witness :
    (save ⟨false, true, true, none⟩ (some "x") (serialize ⟨"", ""⟩ [])).1 =
      some (serialize ⟨"", ""⟩ []) :=
  (aria_C7_save_direct_write ⟨false, true, true, none⟩ (some "x") ⟨"", ""⟩ []).1 rfl

/-! ## Dependency graph (build_orchestrator.cpp, lines 726-843)

`targets` is the list of target names in targets_ order and `depsOf`
is the dependencies_ map (empty for names that are not keys).  The
dependents_ map is built exactly as scan_dependencies builds it: one push
of the target name per occurrence of the dependency in its list. -/

/-- The dependents_ map of scan_dependencies: for each target in order,
one copy per occurrence of d in its dependency list. -/
def buildDependents (targets : List String) (depsOf : String → List String)
    (d : String) : List String :=
  targets.foldl (fun acc t => acc ++ List.replicate ((depsOf t).count d) t) []

/-- Initial in_degree map of build_dependency_graph: the size of the
dependency list for targets, 0 (operator[] default) for other names. -/
def indeg0 (targets : List String) (depsOf : String → List String) (x : String) : Int :=
  if x ∈ targets then ((depsOf x).length : Int) else 0

/-- The decrement loop run over the dependents of a processed node: each
dependent's counter drops by one, and a dependent reaching exactly zero is
pushed at the back of the queue. -/
def foldDecr : List String → (String → Int) → List String → (String → Int) × List String
  | [], ind, q => (ind, q)
  | y :: ys, ind, q =>
    let v := ind y - 1
    foldDecr ys (fun z => if z = y then v else ind z) (if v = 0 then q ++ [y] else q)

/-- The Kahn processing loop of build_dependency_graph: pop the queue
front, append it to the order, decrement its dependents. -/
def kahnLoop (dependentsOf : String → List String) :
    Nat → (String → Int) → List String → List String → List String
  | 0, _, _, order => order
  | _ + 1, _, [], order => order
  | fuel + 1, ind, c :: rest, order =>
    let r := foldDecr (dependentsOf c) ind rest
    kahnLoop dependentsOf fuel r.1 r.2 (order ++ [c])

/-- BuildOrchestrator::build_dependency_graph: Kahn's algorithm.  `enum`
is the iteration order of the in_degree unordered_map (a permutation of
the target names, unspecified by C++); the ready queue is seeded with the
zero in-degree names in that order. -/
def build_order (targets : List String) (depsOf : String → List String)
    (enum : List String) : List String :=
  let ind := indeg0 targets depsOf
  kahnLoop (buildDependents targets depsOf) (targets.length + 1) ind
    (enum.filter (fun n => ind n = 0)) []

/-- The cycle-tracing walk of detect_cycles: follow the first dependency
that is not in the processed set until a vertex repeats or no step is
possible. -/
def cycleWalk (targets : List String) (depsOf : String → List String)
    (processed : List String) :
    Nat → String → List String → List String → List String
  | 0, _, _, path => path
  | fuel + 1, current, visited, path =>
    if current ∈ visited then path
    else
      if current ∈ targets ∧ depsOf current ≠ [] then
        match (depsOf current).find? (fun d => d ∉ processed) with
        | some d => cycleWalk targets depsOf processed fuel d (current :: visited) (path ++ [d])
        | none => path
      else path

/-- BuildOrchestrator::detect_cycles: when the Kahn order misses a target,
report a cycle whose path starts at the first unordered target and walks
forward edges into the unordered set. -/
def detect_cycles (targets : List String) (depsOf : String → List String)
    (enum : List String) : Option (List String) :=
  let order := build_order targets depsOf enum
  if order.length = targets.length then none
  else
    match targets.find? (fun t => t ∉ order) with
    | none => some []
    | some t =>
      some (cycleWalk targets depsOf order
        (targets.length + (targets.map (fun x => (depsOf x).length)).sum + 1) t [] [t])

/-- A walk in the forward dependency graph: consecutive vertices are
joined by a dependency edge. -/
def isWalk (depsOf : String → List String) (l : List String) : Prop :=
  l.Chain' (fun a b => b ∈ depsOf a)

/-- The forward graph contains a cycle: a nonempty walk from a vertex back
to itself. -/
def hasCycle (depsOf : String → List String) : Prop :=
  ∃ v p, p ≠ [] ∧ List.Chain (fun a b => b ∈ depsOf a) v p ∧ p.getLast? = some v

/-- Well-formed dependency maps: every edge from a target points at a
target, and names that are not targets have no entry (no dependencies). -/
def DepsWF (targets : List String) (depsOf : String → List String) : Prop :=
  (∀ t ∈ targets, ∀ d ∈ depsOf t, d ∈ targets) ∧
  (∀ x, x ∉ targets → depsOf x = [])

/-! ### Counting lemmas for the Kahn loop -/

/-- Occurrences in the dependency list of x that Kahn has not yet
processed (the running value of in_degree[x]). -/
def unproc (depsOf : String → List String) (order : List String) (x : String) : Nat :=
  (depsOf x).countP (fun d => d ∉ order)

lemma foldDecr_fst (l : List String) :
    ∀ (ind : String → Int) (q : List String) (x : String),
    (foldDecr l ind q).1 x = ind x - l.count x := by
  induction l with
  | nil => intro ind q x; simp [foldDecr]
  | cons y ys ih =>
    intro ind q x
    rw [show foldDecr (y :: ys) ind q
          = foldDecr ys (fun z => if z = y then ind y - 1 else ind z)
              (if ind y - 1 = 0 then q ++ [y] else q) from rfl]
    rw [ih]
    by_cases hxy : x = y
    · subst hxy
      simp [List.count_cons]
      omega
    · simp [hxy, List.count_cons, Ne.symm hxy]

lemma foldDecr_snd_count (l : List String) :
    ∀ (ind : String → Int) (q : List String) (x : String),
    ((foldDecr l ind q).2).count x =
      q.count x + (if 1 ≤ ind x ∧ ind x ≤ (l.count x : Int) then 1 else 0) := by
  induction l with
  | nil =>
    intro ind q x
    simp [foldDecr]
    omega
  | cons y ys ih =>
    intro ind q x
    rw [show foldDecr (y :: ys) ind q
          = foldDecr ys (fun z => if z = y then ind y - 1 else ind z)
              (if ind y - 1 = 0 then q ++ [y] else q) from rfl]
    rw [ih]
    by_cases hxy : x = y
    · subst hxy
      simp only [if_pos rfl, List.count_cons_self]
      by_cases hz : ind x - 1 = 0
      · rw [if_pos hz]
        simp [List.count_append]
        split_ifs <;> omega
      · rw [if_neg hz]
        split_ifs <;> omega
    · simp only [if_neg hxy, List.count_cons, if_neg (Ne.symm hxy)]
      have hyx : (if y = x then (1 : Nat) else 0) = 0 := if_neg (fun h => hxy h.symm)
      by_cases hz : ind y - 1 = 0
      · rw [if_pos hz]
        simp [List.count_append, List.count_singleton, hyx]
      · rw [if_neg hz]
        simp [hyx]

lemma buildDependents_count_aux (depsOf : String → List String) (d x : String) :
    ∀ (ts : List String) (acc : List String),
    (ts.foldl (fun acc t => acc ++ List.replicate ((depsOf t).count d) t) acc).count x =
      acc.count x + (ts.map (fun t => if t = x then (depsOf t).count d else 0)).sum := by
  intro ts
  induction ts with
  | nil => intro acc; simp
  | cons t ts ih =>
    intro acc
    rw [List.foldl_cons, ih]
    simp [List.count_append, List.count_replicate]
    by_cases htx : t = x
    · subst htx
      simp
      omega
    · simp [htx, fun h => htx (by simpa using h)]

lemma map_ite_sum_nodup (g : String → Nat) (x : String) :
    ∀ (ts : List String), ts.Nodup →
    (ts.map (fun t => if t = x then g t else 0)).sum = if x ∈ ts then g x else 0 := by
  intro ts
  induction ts with
  | nil => intro _; simp
  | cons t ts ih =>
    intro hnd
    rw [List.map_cons, List.sum_cons, ih hnd.of_cons]
    by_cases htx : t = x
    · subst htx
      have hxn : t ∉ ts := hnd.not_mem
      simp [hxn]
    · simp [htx, Ne.symm htx]

lemma buildDependents_count (targets : List String) (depsOf : String → List String)
    (hnd : targets.Nodup) (d x : String) :
    (buildDependents targets depsOf d).count x =
      if x ∈ targets then (depsOf x).count d else 0 := by
  unfold buildDependents
  rw [buildDependents_count_aux]
  simp only [List.count_nil, Nat.zero_add]
  rw [map_ite_sum_nodup (fun t => (depsOf t).count d) x targets hnd]

lemma buildDependents_mem (targets : List String) (depsOf : String → List String)
    (hnd : targets.Nodup) (d x : String) :
    x ∈ buildDependents targets depsOf d ↔ x ∈ targets ∧ d ∈ depsOf x := by
  rw [← List.count_pos_iff, buildDependents_count targets depsOf hnd]
  by_cases hx : x ∈ targets
  · simp [hx, List.count_pos_iff]
  · simp [hx]

/-- Appending the processed vertex c converts unprocessed-count by exactly
the multiplicity of c. -/
lemma unproc_append (depsOf : String → List String) (order : List String) (c : String)
    (hc : c ∉ order) (x : String) :
    unproc depsOf (order ++ [c]) x + (depsOf x).count c = unproc depsOf order x := by
  unfold unproc
  induction depsOf x with
  | nil => simp
  | cons d ds ih =>
    rw [List.countP_cons, List.countP_cons, List.count_cons]
    have hif : (if decide (d ∉ order ++ [c]) = true then (1 : Nat) else 0) +
        (if (d == c) = true then (1 : Nat) else 0) =
        (if decide (d ∉ order) = true then (1 : Nat) else 0) := by
      by_cases hdc : d = c
      · subst hdc
        simp [hc]
      · by_cases hdo : d ∈ order
        · simp [hdc, hdo]
        · simp [hdc, hdo]
    omega

/-- A multiplicity is at most the unprocessed count while the vertex is
unprocessed. -/
lemma count_le_unproc (depsOf : String → List String) (order : List String) (c : String)
    (hc : c ∉ order) (x : String) :
    (depsOf x).count c ≤ unproc depsOf order x := by
  have := unproc_append depsOf order c hc x
  omega

/-! ### The Kahn loop invariant -/

/-- Invariant of the Kahn processing loop: order and queue together list
distinct target names; the counter of every target equals its number of
unprocessed dependency occurrences; a target has been ordered or queued
exactly when its counter reached zero; and every ordered target has all
its dependencies earlier in the order. -/
structure KInv (targets : List String) (depsOf : String → List String)
    (ind : String → Int) (queue order : List String) : Prop where
  nd : (order ++ queue).Nodup
  sub : ∀ x ∈ order ++ queue, x ∈ targets
  deg : ∀ x ∈ targets, ind x = (unproc depsOf order x : Int)
  mem : ∀ x ∈ targets, (x ∈ order ∨ x ∈ queue) ↔ unproc depsOf order x = 0
  tops : ∀ o1 x o2, order = o1 ++ x :: o2 → ∀ d ∈ depsOf x, d ∈ o1

lemma kahn_step (targets : List String) (depsOf : String → List String)
    (hnd : targets.Nodup) (ind : String → Int) (c : String) (rest order : List String)
    (hI : KInv targets depsOf ind (c :: rest) order) :
    KInv targets depsOf (foldDecr (buildDependents targets depsOf c) ind rest).1
      (foldDecr (buildDependents targets depsOf c) ind rest).2 (order ++ [c]) := by
  set l := buildDependents targets depsOf c with hl
  have hct : c ∈ targets := hI.sub c (by simp)
  have hcu : unproc depsOf order c = 0 := (hI.mem c hct).mp (Or.inr (by simp))
  have hco : c ∉ order := by
    intro hmem
    exact (List.disjoint_of_nodup_append hI.nd) hmem (by simp)
  have hdepsc : ∀ d ∈ depsOf c, d ∈ order := by
    intro d hd
    have h0 := hcu
    unfold unproc at h0
    rw [List.countP_eq_zero] at h0
    simpa using h0 d hd
  have hcount : ∀ x, l.count x = if x ∈ targets then (depsOf x).count c else 0 :=
    fun x => buildDependents_count targets depsOf hnd c x
  have hind2 : ∀ x, (foldDecr l ind rest).1 x = ind x - l.count x :=
    foldDecr_fst l ind rest
  have hqc : ∀ x, ((foldDecr l ind rest).2).count x =
      rest.count x + (if 1 ≤ ind x ∧ ind x ≤ (l.count x : Int) then 1 else 0) :=
    foldDecr_snd_count l ind rest
  have huid : ∀ x, unproc depsOf (order ++ [c]) x + (depsOf x).count c =
      unproc depsOf order x :=
    fun x => unproc_append depsOf order c hco x
  -- the pushed elements are exactly the targets whose counter drops to 0 now
  have hpush : ∀ x, (1 ≤ ind x ∧ ind x ≤ (l.count x : Int)) →
      x ∈ targets ∧ unproc depsOf order x ≠ 0 ∧ unproc depsOf (order ++ [c]) x = 0 := by
    intro x hcond
    have hxt : x ∈ targets := by
      by_contra hxt
      rw [hcount x, if_neg hxt] at hcond
      omega
    have hdx := hI.deg x hxt
    rw [hcount x, if_pos hxt] at hcond
    have := huid x
    refine ⟨hxt, ?_, ?_⟩ <;> omega
  have hnotpush : ∀ x, x ∈ targets → ¬ (1 ≤ ind x ∧ ind x ≤ (l.count x : Int)) →
      unproc depsOf (order ++ [c]) x = 0 → unproc depsOf order x = 0 := by
    intro x hxt hcond h0
    have hdx := hI.deg x hxt
    rw [hcount x, if_pos hxt] at hcond
    have := huid x
    omega
  have hmemq2 : ∀ x, x ∈ (foldDecr l ind rest).2 ↔
      x ∈ rest ∨ (1 ≤ ind x ∧ ind x ≤ (l.count x : Int)) := by
    intro x
    constructor
    · intro hx
      have hpos : 0 < ((foldDecr l ind rest).2).count x := List.count_pos_iff.mpr hx
      rw [hqc x] at hpos
      by_cases hcond : 1 ≤ ind x ∧ ind x ≤ (l.count x : Int)
      · exact Or.inr hcond
      · rw [if_neg hcond] at hpos
        exact Or.inl (List.count_pos_iff.mp (by omega))
    · intro hx
      apply List.count_pos_iff.mp
      rw [hqc x]
      rcases hx with hx | hx
      · have := List.count_pos_iff.mpr hx
        omega
      · rw [if_pos hx]
        omega
  refine ⟨?_, ?_, ?_, ?_, ?_⟩
  · -- nodup
    rw [List.nodup_iff_count_le_one]
    intro x
    have hold : (order ++ c :: rest).count x ≤ 1 :=
      List.nodup_iff_count_le_one.mp hI.nd x
    rw [List.count_append, List.count_cons] at hold
    rw [List.count_append, List.count_append, hqc x]
    by_cases hcond : 1 ≤ ind x ∧ ind x ≤ (l.count x : Int)
    · obtain ⟨hxt, hnz, _⟩ := hpush x hcond
      have hnmem : ¬ (x ∈ order ∨ x ∈ c :: rest) := by
        intro hmem
        exact hnz ((hI.mem x hxt).mp hmem)
      push_neg at hnmem
      have h1 : order.count x = 0 := List.count_eq_zero_of_not_mem hnmem.1
      have h2 : rest.count x = 0 :=
        List.count_eq_zero_of_not_mem (fun h => hnmem.2 (by simp [h]))
      have h3 : x ≠ c := fun h => hnmem.2 (by simp [h])
      have h4 : List.count x [c] = 0 :=
        List.count_eq_zero_of_not_mem (by simpa using h3)
      rw [if_pos hcond, h1, h2, h4]
    · rw [if_neg hcond]
      have h4 : List.count x [c] = if c == x then 1 else 0 := by
        rw [List.count_cons]
        simp
      rw [h4]
      omega
  · -- sub
    intro x hx
    rcases List.mem_append.mp hx with hx1 | hx2
    · rcases List.mem_append.mp hx1 with hx3 | hx4
      · exact hI.sub x (by simp [hx3])
      · have : x = c := by simpa using hx4
        subst this
        exact hct
    · rcases (hmemq2 x).mp hx2 with hx5 | hx6
      · exact hI.sub x (by simp [hx5])
      · exact (hpush x hx6).1
  · -- deg
    intro x hxt
    rw [hind2 x, hI.deg x hxt, hcount x, if_pos hxt]
    have := huid x
    omega
  · -- mem
    intro x hxt
    constructor
    · intro hmem
      rcases hmem with hx1 | hx2
      · rcases List.mem_append.mp hx1 with hx3 | hx4
        · have h0 : unproc depsOf order x = 0 := (hI.mem x hxt).mp (Or.inl hx3)
          have := huid x
          omega
        · have hxc : x = c := by simpa using hx4
          subst hxc
          have := huid x
          omega
      · rcases (hmemq2 x).mp hx2 with hx5 | hx6
        · have h0 : unproc depsOf order x = 0 := (hI.mem x hxt).mp (Or.inr (by simp [hx5]))
          have := huid x
          omega
        · exact (hpush x hx6).2.2
    · intro h0
      by_cases hcond : 1 ≤ ind x ∧ ind x ≤ (l.count x : Int)
      · exact Or.inr ((hmemq2 x).mpr (Or.inr hcond))
      · have h1 : unproc depsOf order x = 0 := hnotpush x hxt hcond h0
        rcases (hI.mem x hxt).mpr h1 with hx3 | hx4
        · exact Or.inl (by simp [hx3])
        · rcases List.mem_cons.mp hx4 with hx5 | hx6
          · exact Or.inl (by simp [hx5])
          · exact Or.inr ((hmemq2 x).mpr (Or.inl hx6))
  · -- tops
    intro o1 x o2 hsplit d hd
    rcases List.eq_nil_or_concat o2 with rfl | ⟨L, bb, rfl⟩
    · have hinj := List.append_inj' hsplit (by simp)
      obtain ⟨ho1, hx⟩ := hinj
      have hxc : c = x := by simpa using hx
      subst hxc
      rw [← ho1]
      exact hdepsc d hd
    · rw [List.concat_eq_append, ← List.cons_append, ← List.append_assoc] at hsplit
      have hinj := List.append_inj' hsplit (by simp)
      obtain ⟨ho1, _⟩ := hinj
      exact hI.tops o1 x L ho1 d hd

/-- The order and queue never hold more names than there are targets. -/
lemma kInv_length_le (targets : List String) (depsOf : String → List String)
    (ind : String → Int) (queue order : List String)
    (hI : KInv targets depsOf ind queue order) :
    order.length + queue.length ≤ targets.length := by
  have hsp : List.Subperm (order ++ queue) targets :=
    hI.nd.subperm (fun x hx => hI.sub x hx)
  have := hsp.length_le
  simpa using this

/-- Enough fuel drains the queue while keeping the invariant. -/
lemma kahnLoop_drains (targets : List String) (depsOf : String → List String)
    (hnd : targets.Nodup) :
    ∀ (fuel : Nat) (ind : String → Int) (queue order : List String),
    KInv targets depsOf ind queue order →
    targets.length + 1 ≤ order.length + fuel →
    ∃ ind2, KInv targets depsOf ind2 []
      (kahnLoop (buildDependents targets depsOf) fuel ind queue order) := by
  intro fuel
  induction fuel with
  | zero =>
    intro ind queue order hI hfuel
    exfalso
    have hle := kInv_length_le targets depsOf ind queue order hI
    omega
  | succ fuel ih =>
    intro ind queue order hI hfuel
    cases queue with
    | nil => exact ⟨ind, hI⟩
    | cons c rest =>
      have hstep := kahn_step targets depsOf hnd ind c rest order hI
      have hrec := ih (foldDecr (buildDependents targets depsOf c) ind rest).1
        (foldDecr (buildDependents targets depsOf c) ind rest).2 (order ++ [c]) hstep
        (by simp; omega)
      exact hrec

/-- The invariant holds at the start of the Kahn loop. -/
lemma kahn_init (targets : List String) (depsOf : String → List String)
    (hnd : targets.Nodup) (enum : List String) (henum : enum.Perm targets) :
    KInv targets depsOf (indeg0 targets depsOf)
      (enum.filter (fun n => indeg0 targets depsOf n = 0)) [] := by
  have hed : enum.Nodup := henum.nodup_iff.mpr hnd
  refine ⟨?_, ?_, ?_, ?_, ?_⟩
  · simpa using hed.filter _
  · intro x hx
    simp at hx
    exact henum.mem_iff.mp hx.1
  · intro x hxt
    unfold indeg0 unproc
    rw [if_pos hxt]
    have : (depsOf x).countP (fun d => d ∉ ([] : List String)) = (depsOf x).length :=
      List.countP_eq_length.mpr (by simp)
    rw [this]
  · intro x hxt
    constructor
    · intro hmem
      rcases hmem with h | h
      · simp at h
      · have := List.of_mem_filter h
        unfold indeg0 at this
        rw [if_pos hxt] at this
        unfold unproc
        have hz : ((depsOf x).length : Int) = 0 := by
          simpa using this
        have : (depsOf x).length = 0 := by omega
        rw [List.countP_eq_length_filter]
        simp [List.length_eq_zero.mp this]
    · intro h0
      refine Or.inr (List.mem_filter.mpr ⟨henum.mem_iff.mpr hxt, ?_⟩)
      unfold unproc at h0
      rw [List.countP_eq_length_filter] at h0
      have hfil : (depsOf x).filter (fun d => d ∉ ([] : List String)) = depsOf x := by
        apply List.filter_eq_self.mpr
        simp
      rw [hfil] at h0
      unfold indeg0
      rw [if_pos hxt]
      simp [h0]
  · intro o1 x o2 hsplit
    exact absurd hsplit (by simp)

/-- The final state of build_dependency_graph satisfies the invariant with
an empty queue. -/
lemma build_order_spec (targets : List String) (depsOf : String → List String)
    (hnd : targets.Nodup) (enum : List String) (henum : enum.Perm targets) :
    ∃ ind2, KInv targets depsOf ind2 [] (build_order targets depsOf enum) := by
  unfold build_order
  exact kahnLoop_drains targets depsOf hnd (targets.length + 1) (indeg0 targets depsOf)
    (List.filter (fun n => decide (indeg0 targets depsOf n = 0)) enum) []
    (kahn_init targets depsOf hnd enum henum) (by simp)

/-! ### Cycles versus the Kahn order -/

/-- In a topologically sorted order, a dependency sits strictly earlier. -/
lemma indexOf_dep_lt (depsOf : String → List String) (O : List String) (hnd : O.Nodup)
    (htops : ∀ o1 x o2, O = o1 ++ x :: o2 → ∀ d ∈ depsOf x, d ∈ o1)
    (x y : String) (hx : x ∈ O) (hy : y ∈ depsOf x) :
    O.indexOf y < O.indexOf x := by
  obtain ⟨o1, o2, rfl⟩ := List.append_of_mem hx
  have hyo1 : y ∈ o1 := htops o1 x o2 rfl y hy
  have hxno1 : x ∉ o1 := by
    intro hmem
    exact (List.disjoint_of_nodup_append hnd) hmem (by simp)
  rw [List.indexOf_append_of_mem hyo1, List.indexOf_append_of_not_mem hxno1]
  have h1 : o1.indexOf y < o1.length := List.indexOf_lt_length.mpr hyo1
  simp [List.indexOf_cons_self]
  omega

/-- Along a chain inside a topologically sorted order, the index of the
last vertex is strictly below the index of the start. -/
lemma chain_last_indexOf_lt (depsOf : String → List String) (O : List String)
    (hnd : O.Nodup)
    (htops : ∀ o1 x o2, O = o1 ++ x :: o2 → ∀ d ∈ depsOf x, d ∈ o1) :
    ∀ (p : List String) (v z : String),
      List.Chain (fun a b => b ∈ depsOf a) v p →
      v ∈ O → (∀ w ∈ p, w ∈ O) → p.getLast? = some z →
      O.indexOf z < O.indexOf v := by
  intro p
  induction p with
  | nil =>
    intro v z _ _ _ hlast
    simp at hlast
  | cons w ws ih =>
    intro v z hchain hv hall hlast
    have hcc := List.chain_cons.mp hchain
    have hw : w ∈ O := hall w (by simp)
    have hlt1 : O.indexOf w < O.indexOf v :=
      indexOf_dep_lt depsOf O hnd htops v w hv hcc.1
    cases ws with
    | nil =>
      have hz : z = w := by simpa using hlast.symm
      subst hz
      exact hlt1
    | cons u us =>
      have hlast2 : (u :: us).getLast? = some z := by
        rw [List.getLast?_cons_cons] at hlast
        exact hlast
      have := ih w z hcc.2 hw (fun t ht => hall t (by simp [ht])) hlast2
      omega

/-- Every vertex on a cycle walk is a target: each one has an outgoing
edge, and names outside the target set have none. -/
lemma chain_mem_targets (targets : List String) (depsOf : String → List String)
    (hwf : DepsWF targets depsOf) :
    ∀ (p : List String) (v z : String),
      List.Chain (fun a b => b ∈ depsOf a) v p →
      p.getLast? = some z → z ∈ targets → ∀ w ∈ p, w ∈ targets := by
  intro p
  induction p with
  | nil =>
    intro v z _ _ _ w hw
    simp at hw
  | cons w ws ih =>
    intro v z hchain hlast hz u hu
    have hcc := List.chain_cons.mp hchain
    rcases List.mem_cons.mp hu with hu1 | hu2
    · subst hu1
      cases ws with
      | nil =>
        have : z = u := by simpa using hlast.symm
        subst this
        exact hz
      | cons a as =>
        have hedge : a ∈ depsOf u := (List.chain_cons.mp hcc.2).1
        by_contra hnt
        rw [hwf.2 u hnt] at hedge
        simp at hedge
    · cases ws with
      | nil => simp at hu2
      | cons a as =>
        have hlast2 : (a :: as).getLast? = some z := by
          rw [List.getLast?_cons_cons] at hlast
          exact hlast
        exact ih w z hcc.2 hlast2 hz u hu2

/-- When the graph has a cycle, Kahn leaves some target unordered. -/
lemma kahn_incomplete_of_cycle (targets : List String) (depsOf : String → List String)
    (hwf : DepsWF targets depsOf) (O : List String) (ind2 : String → Int)
    (hI : KInv targets depsOf ind2 [] O) (hcyc : hasCycle depsOf) :
    ∃ t ∈ targets, t ∉ O := by
  obtain ⟨v, p, hp, hchain, hlast⟩ := hcyc
  have hvt : v ∈ targets := by
    cases p with
    | nil => exact absurd rfl hp
    | cons w ws =>
      have hedge : w ∈ depsOf v := (List.chain_cons.mp hchain).1
      by_contra hnt
      rw [hwf.2 v hnt] at hedge
      simp at hedge
  have hallt : ∀ w ∈ p, w ∈ targets :=
    chain_mem_targets targets depsOf hwf p v v hchain hlast hvt
  by_contra hno
  push_neg at hno
  have hOnd : O.Nodup := by simpa using hI.nd
  have hvO : v ∈ O := hno v hvt
  have hallO : ∀ w ∈ p, w ∈ O := fun w hw => hno w (hallt w hw)
  have := chain_last_indexOf_lt depsOf O hOnd hI.tops p v v hchain hvO hallO hlast
  omega

/-- A walk from position s of length m along a sequence. -/
def walkFrom (g : Nat → String) : Nat → Nat → List String
  | _, 0 => []
  | s, m + 1 => g (s + 1) :: walkFrom g (s + 1) m

lemma walkFrom_chain (R : String → String → Prop) (g : Nat → String)
    (hstep : ∀ n, R (g n) (g (n + 1))) :
    ∀ (m s : Nat), List.Chain R (g s) (walkFrom g s m) := by
  intro m
  induction m with
  | zero => intro s; exact List.Chain.nil
  | succ m ih =>
    intro s
    exact List.Chain.cons (hstep s) (ih (s + 1))

lemma walkFrom_getLast (g : Nat → String) :
    ∀ (m s : Nat), (walkFrom g s (m + 1)).getLast? = some (g (s + m + 1)) := by
  intro m
  induction m with
  | zero => intro s; rfl
  | succ m ih =>
    intro s
    show (g (s + 1) :: walkFrom g (s + 1) (m + 1)).getLast? = _
    rw [show walkFrom g (s + 1) (m + 1) = g (s + 2) :: walkFrom g (s + 2) m from rfl]
    rw [List.getLast?_cons_cons]
    rw [show g (s + 2) :: walkFrom g (s + 2) m = walkFrom g (s + 1) (m + 1) from rfl]
    rw [ih (s + 1)]
    congr 2
    omega

/-- A finite set in which every vertex has a successor contains a cycle. -/
lemma exists_cycle_of_succ (depsOf : String → List String) (S : List String)
    (x0 : String) (hx0 : x0 ∈ S)
    (hsucc : ∀ x ∈ S, ∃ y ∈ S, y ∈ depsOf x) : hasCycle depsOf := by
  classical
  let f : {x // x ∈ S} → {x // x ∈ S} := fun a =>
    ⟨Classical.choose (hsucc a.1 a.2), (Classical.choose_spec (hsucc a.1 a.2)).1⟩
  have hf : ∀ a : {x // x ∈ S}, (f a).1 ∈ depsOf a.1 := fun a =>
    (Classical.choose_spec (hsucc a.1 a.2)).2
  let seq : Nat → {x // x ∈ S} := fun n => f^[n] ⟨x0, hx0⟩
  have hseq : ∀ n, seq (n + 1) = f (seq n) := fun n =>
    Function.iterate_succ_apply' f n _
  have hmain : ∀ i j : Nat, i < j → seq i = seq j → hasCycle depsOf := by
    intro i j hij heq
    let g : Nat → String := fun n => (seq n).1
    have hstep : ∀ n, g (n + 1) ∈ depsOf (g n) := by
      intro n
      show (seq (n + 1)).1 ∈ depsOf (seq n).1
      rw [hseq n]
      exact hf (seq n)
    obtain ⟨m, hm⟩ : ∃ m, j - i = m + 1 := ⟨j - i - 1, by omega⟩
    refine ⟨g i, walkFrom g i (j - i), ?_, ?_, ?_⟩
    · rw [hm]
      simp [walkFrom]
    · exact walkFrom_chain _ g hstep (j - i) i
    · rw [hm, walkFrom_getLast g m i]
      have hje : i + m + 1 = j := by omega
      rw [hje]
      show some (seq j).1 = some (seq i).1
      rw [heq]
  have hmap : ∀ i ∈ Finset.range (S.length + 1),
      S.indexOf (seq i).1 ∈ Finset.range S.length := by
    intro i _
    exact Finset.mem_range.mpr (List.indexOf_lt_length.mpr (seq i).2)
  obtain ⟨i, hi, j, hj, hij, heq⟩ :=
    Finset.exists_ne_map_eq_of_card_lt_of_maps_to
      (s := Finset.range (S.length + 1)) (t := Finset.range S.length)
      (by simp) hmap
  have heq2 : seq i = seq j := by
    apply Subtype.ext
    exact (List.indexOf_inj (seq i).2 (seq j).2).mp heq
  rcases lt_or_gt_of_ne hij with h1 | h1
  · exact hmain i j h1 heq2
  · exact hmain j i h1 heq2.symm

/-- When the graph has no cycle, Kahn orders every target. -/
lemma kahn_complete (targets : List String) (depsOf : String → List String)
    (hwf : DepsWF targets depsOf) (O : List String) (ind2 : String → Int)
    (hI : KInv targets depsOf ind2 [] O) (hnc : ¬ hasCycle depsOf) :
    ∀ t ∈ targets, t ∈ O := by
  by_contra hmiss
  push_neg at hmiss
  obtain ⟨t0, ht0, ht0O⟩ := hmiss
  have hsucc : ∀ x ∈ targets.filter (fun t => t ∉ O), ∃ y ∈ targets.filter (fun t => t ∉ O), y ∈ depsOf x := by
    intro x hx
    have hxt : x ∈ targets := (List.mem_filter.mp hx).1
    have hxO : x ∉ O := by simpa using (List.mem_filter.mp hx).2
    have hnz : unproc depsOf O x ≠ 0 := by
      intro h0
      rcases (hI.mem x hxt).mpr h0 with h | h
      · exact hxO h
      · simp at h
    have hpos : 0 < (depsOf x).countP (fun d => d ∉ O) := Nat.pos_of_ne_zero hnz
    obtain ⟨d, hd, hdP⟩ := List.countP_pos_iff.mp hpos
    have hdO : d ∉ O := by simpa using hdP
    have hdt : d ∈ targets := hwf.1 x hxt d hd
    exact ⟨d, List.mem_filter.mpr ⟨hdt, by simpa⟩, hd⟩
  exact hnc (exists_cycle_of_succ depsOf (targets.filter (fun t => t ∉ O)) t0
    (List.mem_filter.mpr ⟨ht0, by simpa⟩) hsucc)

/-- The path built by the cycle-tracing walk follows forward edges. -/
lemma cycleWalk_isWalk (targets : List String) (depsOf : String → List String)
    (processed : List String) :
    ∀ (fuel : Nat) (current : String) (visited path : List String),
      isWalk depsOf path → path.getLast? = some current →
      isWalk depsOf (cycleWalk targets depsOf processed fuel current visited path) := by
  intro fuel
  induction fuel with
  | zero =>
    intro current visited path hw _
    exact hw
  | succ fuel ih =>
    intro current visited path hw hlast
    have hstep : cycleWalk targets depsOf processed (fuel + 1) current visited path =
        if current ∈ visited then path
        else
          if current ∈ targets ∧ depsOf current ≠ [] then
            match (depsOf current).find? (fun d => d ∉ processed) with
            | some d =>
              cycleWalk targets depsOf processed fuel d (current :: visited) (path ++ [d])
            | none => path
          else path := rfl
    rw [hstep]
    by_cases hv : current ∈ visited
    · rw [if_pos hv]
      exact hw
    · rw [if_neg hv]
      by_cases hc : current ∈ targets ∧ depsOf current ≠ []
      · rw [if_pos hc]
        cases hfind : (depsOf current).find? (fun d => d ∉ processed) with
        | none =>
          simp only [hfind]
          exact hw
        | some d =>
          simp only [hfind]
          apply ih d (current :: visited) (path ++ [d])
          · have hd : d ∈ depsOf current := List.mem_of_find?_eq_some hfind
            unfold isWalk at hw ⊢
            rw [List.chain'_append]
            refine ⟨hw, by simp, ?_⟩
            intro x hx y hy
            rw [hlast] at hx
            simp at hx hy
            rw [← hx, ← hy]
            exact hd
          · exact List.getLast?_concat path
      · rw [if_neg hc]
        exact hw

/-- Claim C6 amended: for well-formed graphs with unique target names,
detect_cycles reports a cycle exactly when the forward graph contains one,
and the reported path is a walk in the forward graph; the walk starts at
the first unordered target and need not be closed, and a dependency on an
unknown name also triggers the report (see the counterexample). -/
theorem aria_C6_detect_cycles (targets : List String) (depsOf : String → List String)
    (enum : List String) (hnd : targets.Nodup) (hwf : DepsWF targets depsOf)
    (henum : enum.Perm targets) :
    ((detect_cycles targets depsOf enum).isSome ↔ hasCycle depsOf) ∧
    (∀ p, detect_cycles targets depsOf enum = some p → isWalk depsOf p) := by
  obtain ⟨ind2, hI⟩ := build_order_spec targets depsOf hnd enum henum
  have hOnd : (build_order targets depsOf enum).Nodup := by simpa using hI.nd
  have hOsub : ∀ x ∈ build_order targets depsOf enum, x ∈ targets := fun x hx =>
    hI.sub x (by simpa using hx)
  constructor
  · constructor
    · intro hsome
      by_contra hnc
      have hcompl := kahn_complete targets depsOf hwf _ ind2 hI hnc
      have hperm : (build_order targets depsOf enum).Perm targets :=
        (hOnd.subperm hOsub).antisymm (hnd.subperm hcompl)
      have hlen : (build_order targets depsOf enum).length = targets.length :=
        hperm.length_eq
      unfold detect_cycles at hsome
      rw [if_pos hlen] at hsome
      simp at hsome
    · intro hcyc
      obtain ⟨t, ht, htO⟩ := kahn_incomplete_of_cycle targets depsOf hwf _ ind2 hI hcyc
      have hlenne : (build_order targets depsOf enum).length ≠ targets.length := by
        intro hlen
        have hsp : List.Subperm (build_order targets depsOf enum) targets :=
          hOnd.subperm hOsub
        have hperm := hsp.perm_of_length_le (by omega)
        exact htO (hperm.mem_iff.mpr ht)
      unfold detect_cycles
      rw [if_neg hlenne]
      cases targets.find? (fun t => t ∉ build_order targets depsOf enum) <;> simp
  · intro p hp
    unfold detect_cycles at hp
    by_cases hlen : (build_order targets depsOf enum).length = targets.length
    · rw [if_pos hlen] at hp
      simp at hp
    · rw [if_neg hlen] at hp
      cases hfind : targets.find? (fun t => t ∉ build_order targets depsOf enum) with
      | none =>
        rw [hfind] at hp
        have hpe : p = [] := by simpa using hp.symm
        subst hpe
        simp [isWalk]
      | some t =>
        rw [hfind] at hp
        have hpw := cycleWalk_isWalk targets depsOf (build_order targets depsOf enum)
          (targets.length + (targets.map (fun x => (depsOf x).length)).sum + 1) t [] [t]
          (by simp [isWalk]) (by simp)
        have hpe : p = cycleWalk targets depsOf (build_order targets depsOf enum)
            (targets.length + (targets.map (fun x => (depsOf x).length)).sum + 1) t [] [t] := by
          simpa using hp.symm
        rw [hpe]
        exact hpw

/-- Dependency map with a single target a depending on an unknown name. -/
def depsC6cx : String → List String := fun x => if x = "a" then ["missing"] else []

/-- Well-formed cyclic graph: c depends on a, and a and b depend on each
other; every edge endpoint is a target. -/
def depsC6cx2 : String → List String :=
  fun x => if x = "c" then ["a"]
    else if x = "a" then ["b"]
    else if x = "b" then ["a"] else []

/-- Counterexample to claim C6: with target a declaring a dependency on
the unknown name missing, detect_cycles reports a cycle although the
forward graph has none, and the reported path a -> missing is not closed;
and even on a well-formed graph (c depends on a, a and b form a genuine
cycle) the reported path c -> a -> b -> a is not a closed walk. -/
theorem aria_C6_counterexample :
    (detect_cycles ["a"] depsC6cx ["a"] = some ["a", "missing"] ∧
      ¬ hasCycle depsC6cx ∧
      (["a", "missing"] : List String).head? ≠
        (["a", "missing"] : List String).getLast?) ∧
    (DepsWF ["c", "a", "b"] depsC6cx2 ∧
      hasCycle depsC6cx2 ∧
      detect_cycles ["c", "a", "b"] depsC6cx2 ["c", "a", "b"]
        = some ["c", "a", "b", "a"] ∧
      (["c", "a", "b", "a"] : List String).head? ≠
        (["c", "a", "b", "a"] : List String).getLast?) := by
  refine ⟨⟨by rfl, ?_, by decide⟩,
    ⟨⟨by decide, ?_⟩,
      ⟨"a", ["b", "a"], by simp,
        List.Chain.cons (by decide) (List.Chain.cons (by decide) List.Chain.nil),
        by rfl⟩, by rfl, by decide⟩⟩
  case refine_2 =>
    intro x hx
    simp at hx
    unfold depsC6cx2
    rw [if_neg hx.1, if_neg hx.2.1, if_neg hx.2.2]
  rintro ⟨v, p, hp, hchain, hlast⟩
  cases p with
  | nil => exact hp rfl
  | cons w ws =>
    have hedge : w ∈ depsC6cx v := (List.chain_cons.mp hchain).1
    have hva : v = "a" ∧ w = "missing" := by
      by_cases hv : v = "a"
      · subst hv
        simp [depsC6cx] at hedge
        exact ⟨rfl, hedge⟩
      · simp [depsC6cx, hv] at hedge
    cases ws with
    | nil =>
      have hwv : w = v := by simpa using hlast
      rw [hva.1, hva.2] at hwv
      simp at hwv
    | cons u us =>
      have hedge2 : u ∈ depsC6cx w := (List.chain_cons.mp (List.chain_cons.mp hchain).2).1
      rw [hva.2] at hedge2
      simp [depsC6cx] at hedge2

/-- A two-target graph with a genuine cycle a -> b -> a. -/
def depsC6w : String → List String :=
  fun x => if x = "a" then ["b"] else if x = "b" then ["a"] else []

/-- Witness for the amended C6 at a concrete cyclic graph. -/
theorem aria_C6_witness : hasCycle depsC6w ∧ isWalk depsC6w ["a", "b", "a"] := by
  have hwf : DepsWF ["a", "b"] depsC6w := by
    refine ⟨by decide, ?_⟩
    intro x hx
    simp at hx
    unfold depsC6w
    rw [if_neg hx.1, if_neg hx.2]
  have h := aria_C6_detect_cycles ["a", "b"] depsC6w ["a", "b"] (by decide) hwf
    (List.Perm.refl _)
  refine ⟨h.1.mp (by rfl), h.2 ["a", "b", "a"] (by rfl)⟩

/-- Counterexample to claim C5: the Kahn seeding follows the iteration
order of the in_degree hash map, and for the same two independent targets
the produced order differs with the iteration order; for the legal
iteration order b, a the zero in-degree nodes are not processed
lexicographically. -/
theorem aria_C5_counterexample :
    build_order ["a", "b"] (fun _ => []) ["b", "a"] = ["b", "a"] ∧
    build_order ["a", "b"] (fun _ => []) ["a", "b"] = ["a", "b"] ∧
    (["b", "a"] : List String) ≠ ["a", "b"] :=
  ⟨by rfl, by rfl, by decide⟩

/-- Claim C5 amended: for every iteration order of the hash map (any
permutation of the target names), Kahn on an acyclic well-formed graph
produces an order that is a permutation of the targets and respects the
dependency edges (every dependency of an ordered target appears earlier);
the tie-breaking order among ready targets is the map iteration order, not
the lexicographic order of names. -/
theorem aria_C5_kahn_topological (targets : List String)
    (depsOf : String → List String) (enum : List String) (hnd : targets.Nodup)
    (hwf : DepsWF targets depsOf) (henum : enum.Perm targets)
    (hnc : ¬ hasCycle depsOf) :
    (build_order targets depsOf enum).Perm targets ∧
    (∀ o1 x o2, build_order targets depsOf enum = o1 ++ x :: o2 →
      ∀ d ∈ depsOf x, d ∈ o1) := by
  obtain ⟨ind2, hI⟩ := build_order_spec targets depsOf hnd enum henum
  have hOnd : (build_order targets depsOf enum).Nodup := by simpa using hI.nd
  have hOsub : ∀ x ∈ build_order targets depsOf enum, x ∈ targets := fun x hx =>
    hI.sub x (by simpa using hx)
  have hcompl := kahn_complete targets depsOf hwf _ ind2 hI hnc
  exact ⟨(hOnd.subperm hOsub).antisymm (hnd.subperm hcompl), hI.tops⟩

/-- A two-target acyclic graph: app depends on lib. -/
def depsC5w : String → List String := fun x => if x = "app" then ["lib"] else []

lemma depsC5w_acyclic : ¬ hasCycle depsC5w := by
  rintro ⟨v, p, hp, hchain, hlast⟩
  cases p with
  | nil => exact hp rfl
  | cons w ws =>
    have hedge : w ∈ depsC5w v := (List.chain_cons.mp hchain).1
    have hva : v = "app" ∧ w = "lib" := by
      by_cases hv : v = "app"
      · subst hv
        simp [depsC5w] at hedge
        exact ⟨rfl, hedge⟩
      · simp [depsC5w, hv] at hedge
    cases ws with
    | nil =>
      have hwv : w = v := by simpa using hlast
      rw [hva.1, hva.2] at hwv
      simp at hwv
    | cons u us =>
      have hedge2 : u ∈ depsC5w w := (List.chain_cons.mp (List.chain_cons.mp hchain).2).1
      rw [hva.2] at hedge2
      simp [depsC5w] at hedge2

/-- Witness for the amended C5 at a concrete acyclic graph and iteration
order. -/
theorem aria_C5_witness :
    (build_order ["app", "lib"] depsC5w ["lib", "app"]).Perm ["app", "lib"] := by
  have hwf : DepsWF ["app", "lib"] depsC5w := by
    refine ⟨by decide, ?_⟩
    intro x hx
    simp at hx
    unfold depsC5w
    rw [if_neg hx.1]
  exact (aria_C5_kahn_topological ["app", "lib"] depsC5w ["lib", "app"] (by decide)
    hwf (by decide) depsC5w_acyclic).1

/-! ## Dirty marking with propagation (build_orchestrator.cpp, lines 845-896) -/

/-- The propagation loop: pop a name; if it is not yet dirty, mark it and
push its dependents. -/
def bfsMark (dependentsOf : String → List String) :
    Nat → List String → Finset String → Finset String
  | 0, _, dirty => dirty
  | _ + 1, [], dirty => dirty
  | fuel + 1, h :: rest, dirty =>
    if h ∈ dirty then bfsMark dependentsOf fuel rest dirty
    else bfsMark dependentsOf fuel (rest ++ dependentsOf h) (insert h dirty)

/-- Fuel that always suffices to drain the propagation queue. -/
def bfsFuel (targets : List String) (dependentsOf : String → List String)
    (queue : List String) : Nat :=
  queue.length + (targets.map (fun t => 1 + (dependentsOf t).length)).sum

/-- BuildOrchestrator::mark_dirty_targets: fold over the targets in order;
with force_rebuild every target is inserted, otherwise a target whose
dirty check fires is inserted and its transitive dependents marked. The
verdict function stands for check_dirty returning a reason other than
Clean. -/
def mark_dirty_targets (force : Bool) (verdict : String → Bool)
    (targets : List String) (dependentsOf : String → List String) : Finset String :=
  targets.foldl (fun dirty t =>
    if force then insert t dirty
    else if verdict t then
      bfsMark dependentsOf (bfsFuel targets dependentsOf (dependentsOf t))
        (dependentsOf t) (insert t dirty)
    else dirty) ∅

/-- Remaining propagation work: one unit per unmarked target plus its
dependent list. -/
def bfsWeight (targets : List String) (dependentsOf : String → List String)
    (dirty : Finset String) : Nat :=
  match targets with
  | [] => 0
  | t :: ts =>
    (if t ∈ dirty then 0 else 1 + (dependentsOf t).length) +
      bfsWeight ts dependentsOf dirty

lemma bfsWeight_le (targets : List String) (dependentsOf : String → List String)
    (dirty : Finset String) :
    bfsWeight targets dependentsOf dirty ≤
      (targets.map (fun t => 1 + (dependentsOf t).length)).sum := by
  induction targets with
  | nil => simp [bfsWeight]
  | cons t ts ih =>
    rw [show bfsWeight (t :: ts) dependentsOf dirty =
        (if t ∈ dirty then 0 else 1 + (dependentsOf t).length) +
          bfsWeight ts dependentsOf dirty from rfl]
    rw [List.map_cons, List.sum_cons]
    by_cases hd : t ∈ dirty
    · rw [if_pos hd]
      omega
    · rw [if_neg hd]
      omega

lemma bfsWeight_mono_insert (dependentsOf : String → List String) (h : String)
    (dirty : Finset String) :
    ∀ targets : List String,
    bfsWeight targets dependentsOf (insert h dirty) ≤
      bfsWeight targets dependentsOf dirty := by
  intro targets
  induction targets with
  | nil => simp [bfsWeight]
  | cons t ts ih =>
    rw [show bfsWeight (t :: ts) dependentsOf (insert h dirty) =
        (if t ∈ insert h dirty then 0 else 1 + (dependentsOf t).length) +
          bfsWeight ts dependentsOf (insert h dirty) from rfl]
    rw [show bfsWeight (t :: ts) dependentsOf dirty =
        (if t ∈ dirty then 0 else 1 + (dependentsOf t).length) +
          bfsWeight ts dependentsOf dirty from rfl]
    by_cases hd : t ∈ dirty
    · rw [if_pos hd, if_pos (Finset.mem_insert_of_mem hd)]
      omega
    · rw [if_neg hd]
      by_cases hi : t ∈ insert h dirty
      · rw [if_pos hi]
        omega
      · rw [if_neg hi]
        omega

lemma bfsWeight_drop (targets : List String) (dependentsOf : String → List String)
    (dirty : Finset String) (h : String) (hht : h ∈ targets) (hhd : h ∉ dirty) :
    bfsWeight targets dependentsOf (insert h dirty) + 1 + (dependentsOf h).length ≤
      bfsWeight targets dependentsOf dirty := by
  induction targets with
  | nil => simp at hht
  | cons t ts ih =>
    rw [show bfsWeight (t :: ts) dependentsOf (insert h dirty) =
        (if t ∈ insert h dirty then 0 else 1 + (dependentsOf t).length) +
          bfsWeight ts dependentsOf (insert h dirty) from rfl]
    rw [show bfsWeight (t :: ts) dependentsOf dirty =
        (if t ∈ dirty then 0 else 1 + (dependentsOf t).length) +
          bfsWeight ts dependentsOf dirty from rfl]
    rcases List.mem_cons.mp hht with h1 | h2
    · subst h1
      rw [if_pos (Finset.mem_insert_self h dirty), if_neg hhd]
      have := bfsWeight_mono_insert dependentsOf h dirty ts
      omega
    · by_cases heq : t = h
      · subst heq
        rw [if_pos (Finset.mem_insert_self t dirty), if_neg hhd]
        have := bfsWeight_mono_insert dependentsOf t dirty ts
        omega
      · have hiff : (t ∈ insert h dirty) ↔ (t ∈ dirty) := by
          constructor
          · intro hm
            rcases Finset.mem_insert.mp hm with he | he
            · exact absurd he heq
            · exact he
          · exact Finset.mem_insert_of_mem
        have := ih h2
        by_cases hd : t ∈ dirty
        · rw [if_pos hd, if_pos (hiff.mpr hd)]
          omega
        · rw [if_neg hd, if_neg (fun hm => hd (hiff.mp hm))]
          omega

/-- Closure property of the propagation BFS: the result contains the
initial set and queue, and is closed under dependent edges. -/
lemma bfsMark_spec (targets : List String) (dependentsOf : String → List String)
    (hdepwf : ∀ x y, y ∈ dependentsOf x → y ∈ targets) :
    ∀ (fuel : Nat) (queue : List String) (dirty : Finset String),
    (∀ x ∈ queue, x ∈ targets) →
    (∀ x ∈ dirty, ∀ y ∈ dependentsOf x, y ∈ dirty ∨ y ∈ queue) →
    queue.length + bfsWeight targets dependentsOf dirty ≤ fuel →
    dirty ⊆ bfsMark dependentsOf fuel queue dirty ∧
    (∀ x ∈ queue, x ∈ bfsMark dependentsOf fuel queue dirty) ∧
    (∀ x ∈ bfsMark dependentsOf fuel queue dirty, ∀ y ∈ dependentsOf x,
      y ∈ bfsMark dependentsOf fuel queue dirty) := by
  intro fuel
  induction fuel with
  | zero =>
    intro queue dirty hq hcl hfuel
    have hq0 : queue = [] := by
      cases queue with
      | nil => rfl
      | cons a as =>
        exfalso
        have : (a :: as).length = as.length + 1 := by simp
        omega
    subst hq0
    refine ⟨Finset.Subset.refl _, by simp, ?_⟩
    intro x hx y hy
    rcases hcl x hx y hy with h | h
    · exact h
    · simp at h
  | succ fuel ih =>
    intro queue dirty hq hcl hfuel
    cases queue with
    | nil =>
      refine ⟨Finset.Subset.refl _, by simp, ?_⟩
      intro x hx y hy
      rcases hcl x hx y hy with h | h
      · exact h
      · simp at h
    | cons h rest =>
      by_cases hd : h ∈ dirty
      · have hstep : bfsMark dependentsOf (fuel + 1) (h :: rest) dirty =
            bfsMark dependentsOf fuel rest dirty := by
          simp [bfsMark, hd]
        have hrec := ih rest dirty (fun x hx => hq x (by simp [hx]))
          (by
            intro x hx y hy
            rcases hcl x hx y hy with h1 | h1
            · exact Or.inl h1
            · rcases List.mem_cons.mp h1 with h2 | h2
              · subst h2
                exact Or.inl hd
              · exact Or.inr h2)
          (by
            have : (h :: rest).length = rest.length + 1 := by simp
            omega)
        rw [hstep]
        refine ⟨hrec.1, ?_, hrec.2.2⟩
        intro x hx
        rcases List.mem_cons.mp hx with h1 | h1
        · subst h1
          exact hrec.1 hd
        · exact hrec.2.1 x h1
      · have hht : h ∈ targets := hq h (by simp)
        have hW := bfsWeight_drop targets dependentsOf dirty h hht hd
        have hstep : bfsMark dependentsOf (fuel + 1) (h :: rest) dirty =
            bfsMark dependentsOf fuel (rest ++ dependentsOf h) (insert h dirty) := by
          simp [bfsMark, hd]
        have hrec := ih (rest ++ dependentsOf h) (insert h dirty)
          (by
            intro x hx
            rcases List.mem_append.mp hx with h1 | h1
            · exact hq x (by simp [h1])
            · exact hdepwf h x h1)
          (by
            intro x hx y hy
            rcases Finset.mem_insert.mp hx with h1 | h1
            · subst h1
              exact Or.inr (List.mem_append.mpr (Or.inr hy))
            · rcases hcl x h1 y hy with h2 | h2
              · exact Or.inl (Finset.mem_insert_of_mem h2)
              · rcases List.mem_cons.mp h2 with h3 | h3
                · subst h3
                  exact Or.inl (Finset.mem_insert_self y dirty)
                · exact Or.inr (List.mem_append.mpr (Or.inl h3)))
          (by
            have h1 : (h :: rest).length = rest.length + 1 := by simp
            have h2 : (rest ++ dependentsOf h).length =
                rest.length + (dependentsOf h).length := by simp
            omega)
        rw [hstep]
        refine ⟨?_, ?_, hrec.2.2⟩
        · exact fun x hx => hrec.1 (Finset.mem_insert_of_mem hx)
        · intro x hx
          rcases List.mem_cons.mp hx with h1 | h1
          · subst h1
            exact hrec.1 (Finset.mem_insert_self x dirty)
          · exact hrec.2.1 x (List.mem_append.mpr (Or.inl h1))

/-- One iteration of the dirty-marking loop. -/
def markStep (force : Bool) (verdict : String → Bool) (targets : List String)
    (dependentsOf : String → List String) (dirty : Finset String) (t : String) :
    Finset String :=
  if force then insert t dirty
  else if verdict t then
    bfsMark dependentsOf (bfsFuel targets dependentsOf (dependentsOf t))
      (dependentsOf t) (insert t dirty)
  else dirty

lemma mark_dirty_targets_eq_foldl (force : Bool) (verdict : String → Bool)
    (targets : List String) (dependentsOf : String → List String) :
    mark_dirty_targets force verdict targets dependentsOf =
      targets.foldl (markStep force verdict targets dependentsOf) ∅ := rfl

lemma bfsMark_mono (dependentsOf : String → List String) :
    ∀ (fuel : Nat) (queue : List String) (dirty : Finset String),
    dirty ⊆ bfsMark dependentsOf fuel queue dirty := by
  intro fuel
  induction fuel with
  | zero => intro queue dirty; exact Finset.Subset.refl _
  | succ fuel ih =>
    intro queue dirty
    cases queue with
    | nil => exact Finset.Subset.refl _
    | cons h rest =>
      by_cases hd : h ∈ dirty
      · rw [show bfsMark dependentsOf (fuel + 1) (h :: rest) dirty =
            bfsMark dependentsOf fuel rest dirty from by simp [bfsMark, hd]]
        exact ih rest dirty
      · rw [show bfsMark dependentsOf (fuel + 1) (h :: rest) dirty =
            bfsMark dependentsOf fuel (rest ++ dependentsOf h) (insert h dirty) from by
          simp [bfsMark, hd]]
        exact (Finset.subset_insert h dirty).trans (ih _ _)

lemma markStep_mono (force : Bool) (verdict : String → Bool) (targets : List String)
    (dependentsOf : String → List String) (dirty : Finset String) (t : String) :
    dirty ⊆ markStep force verdict targets dependentsOf dirty t := by
  unfold markStep
  by_cases hf : force = true
  · rw [if_pos hf]
    exact Finset.subset_insert t dirty
  · rw [if_neg hf]
    by_cases hv : verdict t = true
    · rw [if_pos hv]
      exact (Finset.subset_insert t dirty).trans (bfsMark_mono dependentsOf _ _ _)
    · rw [if_neg hv]

lemma mark_foldl_mono (force : Bool) (verdict : String → Bool) (targets : List String)
    (dependentsOf : String → List String) :
    ∀ (ts : List String) (dirty0 : Finset String),
    dirty0 ⊆ ts.foldl (markStep force verdict targets dependentsOf) dirty0 := by
  intro ts
  induction ts with
  | nil => intro dirty0; exact Finset.Subset.refl _
  | cons t ts ih =>
    intro dirty0
    rw [List.foldl_cons]
    exact (markStep_mono force verdict targets dependentsOf dirty0 t).trans (ih _)

lemma mark_foldl_force (verdict : String → Bool) (targets : List String)
    (dependentsOf : String → List String) :
    ∀ (ts : List String) (dirty0 : Finset String) (t : String), t ∈ ts →
    t ∈ ts.foldl (markStep true verdict targets dependentsOf) dirty0 := by
  intro ts
  induction ts with
  | nil => intro dirty0 t ht; simp at ht
  | cons u us ih =>
    intro dirty0 t ht
    rw [List.foldl_cons]
    rcases List.mem_cons.mp ht with h1 | h2
    · subst h1
      apply mark_foldl_mono true verdict targets dependentsOf us
      rw [show markStep true verdict targets dependentsOf dirty0 t =
          insert t dirty0 from by simp [markStep]]
      exact Finset.mem_insert_self t dirty0
    · exact ih _ t h2

/-- Fold invariant of the non-forced dirty marking: the accumulated set is
closed under dependent edges, only grows, and contains every target whose
dirty verdict fired. -/
lemma mark_fold_spec (verdict : String → Bool) (targets : List String)
    (dependentsOf : String → List String)
    (hdepwf : ∀ x y, y ∈ dependentsOf x → y ∈ targets) :
    ∀ (ts : List String) (dirty0 : Finset String),
    (∀ x ∈ dirty0, ∀ y ∈ dependentsOf x, y ∈ dirty0) →
    (∀ x ∈ ts.foldl (markStep false verdict targets dependentsOf) dirty0,
      ∀ y ∈ dependentsOf x, y ∈ ts.foldl (markStep false verdict targets dependentsOf) dirty0) ∧
    (∀ t ∈ ts, verdict t = true →
      t ∈ ts.foldl (markStep false verdict targets dependentsOf) dirty0) := by
  intro ts
  induction ts with
  | nil =>
    intro dirty0 hcl
    refine ⟨hcl, ?_⟩
    intro t ht
    simp at ht
  | cons t ts ih =>
    intro dirty0 hcl
    rw [List.foldl_cons]
    by_cases hv : verdict t = true
    · have hstep : markStep false verdict targets dependentsOf dirty0 t =
          bfsMark dependentsOf (bfsFuel targets dependentsOf (dependentsOf t))
            (dependentsOf t) (insert t dirty0) := by
        simp [markStep, hv]
      have hbfs := bfsMark_spec targets dependentsOf hdepwf
        (bfsFuel targets dependentsOf (dependentsOf t)) (dependentsOf t)
        (insert t dirty0)
        (fun x hx => hdepwf t x hx)
        (by
          intro x hx y hy
          rcases Finset.mem_insert.mp hx with h1 | h1
          · subst h1
            exact Or.inr hy
          · exact Or.inl (Finset.mem_insert_of_mem (hcl x h1 y hy)))
        (by
          have := bfsWeight_le targets dependentsOf (insert t dirty0)
          unfold bfsFuel
          omega)
      have hrec := ih (markStep false verdict targets dependentsOf dirty0 t)
        (by rw [hstep]; exact hbfs.2.2)
      refine ⟨hrec.1, ?_⟩
      intro u hu hvu
      rcases List.mem_cons.mp hu with h1 | h2
      · subst h1
        apply mark_foldl_mono false verdict targets dependentsOf ts
        rw [hstep]
        exact hbfs.1 (Finset.mem_insert_self u dirty0)
      · exact hrec.2 u h2 hvu
    · have hstep : markStep false verdict targets dependentsOf dirty0 t = dirty0 := by
        simp [markStep, hv]
      rw [hstep]
      have hrec := ih dirty0 hcl
      refine ⟨hrec.1, ?_⟩
      intro u hu hvu
      rcases List.mem_cons.mp hu with h1 | h2
      · subst h1
        exact absurd hvu hv
      · exact hrec.2 u h2 hvu

lemma buildDependents_mem_aux (depsOf : String → List String) (d x : String) :
    ∀ (ts acc : List String),
    (x ∈ ts.foldl (fun acc t => acc ++ List.replicate ((depsOf t).count d) t) acc ↔
      x ∈ acc ∨ ∃ t ∈ ts, x = t ∧ d ∈ depsOf t) := by
  intro ts
  induction ts with
  | nil => intro acc; simp
  | cons t ts ih =>
    intro acc
    rw [List.foldl_cons, ih]
    constructor
    · rintro (hx | ⟨u, hu, hxu, hdu⟩)
      · rcases List.mem_append.mp hx with h1 | h1
        · exact Or.inl h1
        · have h2 := List.mem_replicate.mp h1
          refine Or.inr ⟨t, by simp, h2.2, ?_⟩
          have : 0 < (depsOf t).count d := Nat.pos_of_ne_zero h2.1
          exact List.count_pos_iff.mp this
      · exact Or.inr ⟨u, by simp [hu], hxu, hdu⟩
    · rintro (hx | ⟨u, hu, hxu, hdu⟩)
      · exact Or.inl (List.mem_append.mpr (Or.inl hx))
      · rcases List.mem_cons.mp hu with h1 | h1
        · subst h1
          refine Or.inl (List.mem_append.mpr (Or.inr ?_))
          refine List.mem_replicate.mpr ⟨?_, hxu⟩
          exact Nat.pos_iff_ne_zero.mp (List.count_pos_iff.mpr hdu)
        · exact Or.inr ⟨u, h1, hxu, hdu⟩

lemma buildDependents_mem2 (targets : List String) (depsOf : String → List String)
    (d x : String) :
    x ∈ buildDependents targets depsOf d ↔ x ∈ targets ∧ d ∈ depsOf x := by
  unfold buildDependents
  rw [buildDependents_mem_aux]
  constructor
  · rintro (hx | ⟨t, ht, hxt, hdt⟩)
    · simp at hx
    · subst hxt
      exact ⟨ht, hdt⟩
  · rintro ⟨hx, hd⟩
    exact Or.inr ⟨x, hx, rfl, hd⟩

/-- Claim C2: after the dirty-marking phase, the dirty set is closed under
reverse dependency edges: for every processed target A whose dirty check
fired (or any target under force_rebuild) and every target T whose
transitive forward dependencies include A, T is in the dirty set.  The
verdict function stands for the check_dirty outcome; the dependents map is
the one scan_dependencies builds from the forward lists. -/
theorem aria_C2_dirty_propagation_closure (force : Bool) (verdict : String → Bool)
    (targets : List String) (depsOf : String → List String)
    (hwf2 : ∀ x, x ∉ targets → depsOf x = [])
    (A T : String) (hA : A ∈ targets) (hT : T ∈ targets)
    (hAdirty : force = true ∨ verdict A = true)
    (hreach : Relation.ReflTransGen (fun u v => v ∈ depsOf u) T A) :
    T ∈ mark_dirty_targets force verdict targets (buildDependents targets depsOf) := by
  rw [mark_dirty_targets_eq_foldl]
  cases force with
  | true => exact mark_foldl_force verdict targets _ targets ∅ T hT
  | false =>
    have hv : verdict A = true := by
      rcases hAdirty with h | h
      · simp at h
      · exact h
    have hdepwf : ∀ x y, y ∈ buildDependents targets depsOf x → y ∈ targets :=
      fun x y hy => ((buildDependents_mem2 targets depsOf x y).mp hy).1
    have hspec := mark_fold_spec verdict targets (buildDependents targets depsOf)
      hdepwf targets ∅ (by simp)
    have hAS : A ∈ targets.foldl
        (markStep false verdict targets (buildDependents targets depsOf)) ∅ :=
      hspec.2 A hA hv
    have hswap : Relation.ReflTransGen (Function.swap (fun u v => v ∈ depsOf u)) A T :=
      hreach.swap
    have hmain : T ∈ targets →
        T ∈ targets.foldl (markStep false verdict targets (buildDependents targets depsOf)) ∅ := by
      clear hT hreach
      induction hswap with
      | refl => exact fun _ => hAS
      | tail hab hbc ih =>
        rename_i b c
        intro hct
        have hbt : b ∈ targets := by
          rcases hab.cases_tail with h1 | ⟨w, _, hwb⟩
          · rw [h1]
            exact hA
          · by_contra hnt
            have hwdep : w ∈ depsOf b := hwb
            rw [hwf2 b hnt] at hwdep
            simp at hwdep
        have hbS := ih hbt
        have hcmem : c ∈ buildDependents targets depsOf b :=
          (buildDependents_mem2 targets depsOf b c).mpr ⟨hct, hbc⟩
        exact hspec.1 b hbS c hcmem
    exact hmain hT

/-- Forward graph used in the C2 witness: app depends on liba. -/
def depsC2w : String → List String := fun x => if x = "app" then ["liba"] else []

/-- Witness for C2: liba is found dirty, so its dependent app is marked. -/
theorem aria_C2_witness :
    "app" ∈ mark_dirty_targets false (fun s => s == "liba") ["liba", "app"]
      (buildDependents ["liba", "app"] depsC2w) := by
  apply aria_C2_dirty_propagation_closure false (fun s => s == "liba")
    ["liba", "app"] depsC2w ?_ "liba" "app" (by decide) (by decide)
    (Or.inr (by decide)) ?_
  · intro x hx
    simp at hx
    unfold depsC2w
    rw [if_neg hx.2]
  · exact Relation.ReflTransGen.single (by decide)

/-! ## Build execution (build_orchestrator.cpp, lines 919-1086)

The parallel scheduler is modelled by its serialized interleaving: the
control loop pops one ready target, the worker runs the whole build task
to completion, and the loop continues.  Any property claimed for all runs
must hold for this interleaving.  `outcome t` is the success of
build_single_target on t; cancellation stays false. -/

/-- BuildOrchestrator::execute_builds_sequential.  Returns the dispatched
targets in order, the failed and built counters, and whether the loop
returned early because of fail_fast. -/
def execute_builds_sequential (outcome : String → Bool) (fail_fast : Bool)
    (dirty : Finset String) : List String → List String × Nat × Nat × Bool
  | [] => ([], 0, 0, false)
  | t :: rest =>
    if t ∉ dirty then execute_builds_sequential outcome fail_fast dirty rest
    else
      if outcome t then
        let r := execute_builds_sequential outcome fail_fast dirty rest
        (t :: r.1, r.2.1, r.2.2.1 + 1, r.2.2.2)
      else
        if fail_fast then ([t], 1, 0, true)
        else
          let r := execute_builds_sequential outcome fail_fast dirty rest
          (t :: r.1, r.2.1 + 1, r.2.2.1, r.2.2.2)

/-- State of the parallel scheduler. -/
structure PSched where
  depCount : String → Int
  ready : List String
  builtCount : Nat
  hasFailure : Bool
  failedTargets : Nat
  builtTargets : Nat
  dispatched : List String

/-- The worker body (build_task in execute_builds_parallel): the fail-fast
gate, the build itself, the result bookkeeping, and the notification loop
that decrements every dependent and enqueues those reaching zero.  The
notification runs whether or not the build succeeded. -/
def build_task (fail_fast : Bool) (reverseDeps : String → List String)
    (outcome : String → Bool) (st : PSched) (t : String) : PSched :=
  if fail_fast && st.hasFailure then st
  else
    let success := outcome t
    let st1 : PSched :=
      { st with
        dispatched := st.dispatched ++ [t],
        hasFailure := st.hasFailure || !success,
        failedTargets := st.failedTargets + (if success then 0 else 1),
        builtTargets := st.builtTargets + (if success then 1 else 0),
        builtCount := st.builtCount + 1 }
    let r := foldDecr (reverseDeps t) st1.depCount st1.ready
    { st1 with depCount := r.1, ready := r.2 }

/-- The serialized scheduling loop of execute_builds_parallel. -/
def parallel_loop (fail_fast : Bool) (reverseDeps : String → List String)
    (outcome : String → Bool) (totalDirty : Nat) :
    Nat → PSched → PSched
  | 0, st => st
  | fuel + 1, st =>
    if st.builtCount < totalDirty ∧ ¬ (fail_fast = true ∧ st.hasFailure = true) then
      match st.ready with
      | [] => st
      | t :: rest =>
        parallel_loop fail_fast reverseDeps outcome totalDirty fuel
          (build_task fail_fast reverseDeps outcome { st with ready := rest } t)
    else st

/-- BuildOrchestrator::execute_builds_parallel, serialized.  `dirtyList`
is the iteration order of the dirty set; dep_count counts the dirty
dependencies of each dirty target and reverse_deps collects the dirty
dependents. -/
def execute_builds_parallel (fail_fast : Bool) (depsOf : String → List String)
    (outcome : String → Bool) (dirtyList : List String) : PSched :=
  let dc : String → Int := fun t =>
    if t ∈ dirtyList then (((depsOf t).filter (fun d => d ∈ dirtyList)).length : Int) else 0
  let rd : String → List String := fun d =>
    if d ∈ dirtyList then buildDependents dirtyList depsOf d else []
  let st0 : PSched :=
    ⟨dc, dirtyList.filter (fun t => dc t = 0), 0, false, 0, 0, []⟩
  parallel_loop fail_fast rd outcome dirtyList.length (dirtyList.length + 1) st0

/-- Forward graph of the C3 counterexample: b depends on a. -/
def depsC3 : String → List String := fun x => if x = "b" then ["a"] else []

/-- Counterexample to claim C3: under keep_going, after a fails, the
counter of its dependent b is decremented to zero and b is dispatched,
both in the (serialized) parallel scheduler and in the sequential path; so
a dependent of a failed target is built in that run. -/
theorem aria_C3_counterexample :
    (execute_builds_parallel false depsC3 (fun s => s == "b") ["a", "b"]).dispatched
      = ["a", "b"] ∧
    (execute_builds_parallel false depsC3 (fun s => s == "b") ["a", "b"]).failedTargets = 1 ∧
    (execute_builds_parallel false depsC3 (fun s => s == "b") ["a", "b"]).hasFailure = true ∧
    (execute_builds_sequential (fun s => s == "b") false {"a", "b"} ["a", "b"]).1
      = ["a", "b"] := by
  refine ⟨by rfl, by rfl, by rfl, by rfl⟩

/-- Claim C3 amended: under keep_going, a failed build still decrements the
remaining-dependency counters of its dependents exactly as a successful one
does, enqueueing every dependent that reaches zero, so dependents of the
failed target are dispatched rather than quarantined; the failure is
recorded in has_failure and failed_targets, and independent work continues
(the loop has no gate when fail_fast is off). -/
theorem aria_C3_keep_going_releases_dependents
    (reverseDeps : String → List String) (st : PSched) (t : String) :
    (build_task false reverseDeps (fun _ => false) st t).depCount =
      (build_task false reverseDeps (fun _ => true) st t).depCount ∧
    (build_task false reverseDeps (fun _ => false) st t).ready =
      (build_task false reverseDeps (fun _ => true) st t).ready ∧
    (build_task false reverseDeps (fun _ => false) st t).dispatched =
      (build_task false reverseDeps (fun _ => true) st t).dispatched ∧
    (build_task false reverseDeps (fun _ => false) st t).builtCount =
      (build_task false reverseDeps (fun _ => true) st t).builtCount ∧
    (build_task false reverseDeps (fun _ => false) st t).hasFailure = true ∧
    (build_task false reverseDeps (fun _ => false) st t).failedTargets =
      st.failedTargets + 1 := by
  refine ⟨rfl, rfl, rfl, rfl, ?_, rfl⟩
  unfold build_task
  simp

/-! ## Command line front end (main.cpp) -/

inductive Command where
  | BUILD
  | CLEAN
  | REBUILD
  | CHECK
  | TARGETS
  | DEPS
deriving DecidableEq, Repr

structure Opts where
  command : Command
  show_help : Bool
  show_version : Bool
  verbose : Bool
  quiet : Bool
  force_rebuild : Bool
  dry_run : Bool
  fail_fast : Bool
  continue_on_error : Bool
  num_threads : Nat
  build_file : String
  project_root : String
  targets : List String
deriving Repr

/-- Options before argument parsing (BuildConfig defaults). -/
def defaultOpts : Opts :=
  ⟨.BUILD, false, false, false, false, false, false, true, false, 0,
    "build.abc", ".", []⟩

inductive ParseResult where
  | ok (o : Opts)
  | fail
  | crash
deriving Repr

/-- std::stoul: optional spaces and sign, then at least one digit;
anything else throws (modelled as none, which aborts the process). -/
def stoulOpt (s : String) : Option Nat :=
  let t := s.data.dropWhile (fun c => c = ' ')
  let t2 := match t with
    | '+' :: r => r
    | '-' :: r => r
    | r => r
  let digits := t2.takeWhile Char.isDigit
  if digits.isEmpty then none
  else some (digits.foldl (fun acc c => acc * 10 + (c.toNat - 48)) 0)

/-- parse_args from main.cpp: commands, options with arguments, boolean
options, the unknown-option rejection, and bare words as target names. -/
def parse_args : List String → Opts → ParseResult
  | [], o => .ok o
  | arg :: rest, o =>
    if arg = "-h" ∨ arg = "--help" then .ok { o with show_help := true }
    else if arg = "--version" then .ok { o with show_version := true }
    else if arg = "build" then parse_args rest { o with command := .BUILD }
    else if arg = "clean" then parse_args rest { o with command := .CLEAN }
    else if arg = "rebuild" then parse_args rest { o with command := .REBUILD }
    else if arg = "check" then parse_args rest { o with command := .CHECK }
    else if arg = "targets" then parse_args rest { o with command := .TARGETS }
    else if arg = "deps" then parse_args rest { o with command := .DEPS }
    else if arg = "-C" ∧ rest ≠ [] then
      match rest with
      | v :: rest2 => parse_args rest2 { o with project_root := v }
      | [] => .fail
    else if arg = "-f" ∧ rest ≠ [] then
      match rest with
      | v :: rest2 => parse_args rest2 { o with build_file := v }
      | [] => .fail
    else if (arg = "-j" ∨ arg = "--jobs") ∧ rest ≠ [] then
      match rest with
      | v :: rest2 =>
        match stoulOpt v with
        | some n => parse_args rest2 { o with num_threads := n }
        | none => .crash
      | [] => .fail
    else if arg = "-v" ∨ arg = "--verbose" then
      parse_args rest { o with verbose := true }
    else if arg = "-q" ∨ arg = "--quiet" then
      parse_args rest { o with quiet := true }
    else if arg = "--force" then parse_args rest { o with force_rebuild := true }
    else if arg = "--dry-run" then parse_args rest { o with dry_run := true }
    else if arg = "--fail-fast" then
      parse_args rest { o with fail_fast := true, continue_on_error := false }
    else if arg = "--keep-going" then
      parse_args rest { o with fail_fast := false, continue_on_error := true }
    else if arg.data.headD (Char.ofNat 0) = '-' then .fail
    else parse_args rest { o with targets := o.targets ++ [arg] }

/-- main from main.cpp, at the exit-code level.  The three Bool arguments
are the success of the orchestrator calls build, clean and rebuild; check,
targets and deps always return 0.  A crash of std::stoul terminates the
process without the normal return (modelled as none). -/
def main_exit (args : List String) (buildOk cleanOk rebuildOk : Bool) : Option Nat :=
  match parse_args args defaultOpts with
  | .crash => none
  | .fail => some 1
  | .ok opts =>
    if opts.show_help then some 0
    else if opts.show_version then some 0
    else
      match opts.command with
      | .BUILD => some (if buildOk then 0 else 1)
      | .CLEAN => some (if cleanOk then 0 else 1)
      | .REBUILD => some (if rebuildOk then 0 else 1)
      | .CHECK => some 0
      | .TARGETS => some 0
      | .DEPS => some 0

/-- Counterexample to claim C8: an unknown command line option makes the
program exit with code 1, not with the configuration/usage code 2. -/
theorem aria_C8_counterexample :
    main_exit ["--frobnicate"] true true true = some 1 ∧ (1 : Nat) ≠ 2 :=
  ⟨by rfl, by decide⟩

/-- Claim C8 amended: the process exits with 0 on success (and for help,
version, check, targets and deps) and with 1 both on build failure and on
configuration or usage errors such as an unknown option; exit code 2 is
never produced (and a malformed -j value aborts instead of exiting). -/
theorem aria_C8_exit_codes (args : List String) (buildOk cleanOk rebuildOk : Bool) :
    (∀ n, main_exit args buildOk cleanOk rebuildOk = some n → n = 0 ∨ n = 1) ∧
    (parse_args args defaultOpts = .fail →
      main_exit args buildOk cleanOk rebuildOk = some 1) := by
  constructor
  · intro n hn
    unfold main_exit at hn
    split at hn
    · exact Option.noConfusion hn
    · exact Or.inr (Option.some.inj hn).symm
    · split at hn
      · exact Or.inl (Option.some.inj hn).symm
      · split at hn
        · exact Or.inl (Option.some.inj hn).symm
        · split at hn <;> (try split_ifs at hn) <;>
            first
              | exact Or.inl (Option.some.inj hn).symm
              | exact Or.inr (Option.some.inj hn).symm
  · intro hp
    unfold main_exit
    rw [hp]

/-- Witness for the amended C8 at a concrete unknown option. -/
theorem aria_C8_witness : main_exit ["--zzz"] false true true = some 1 :=
  (aria_C8_exit_codes ["--zzz"] false true true).2 (by rfl)

end AriaMake
